import Mathlib

/-!
# wordchain: word ladders by breadth-first search

A shallow embedding of `wordchain.cpp` and proofs about it.

* `std::string` is a list of characters (`Word`).
* `std::unordered_set<std::string>` is a list used through `insert`, membership
  and `length` only (`Dictionary`, and the `visited` set of a traversal).
* `std::deque<WordPath>` is a list: `front` is the head, `push_back` appends.
* `std::cout` is the text a function returns.
* The `while` loops run on fuel; `none` means that the model gives no result
  (the fuel ran out, or `back()` was read on an empty vector).  The theorems
  show that neither happens.
-/

namespace WordChain

/-- A `std::string`. -/
abbrev Word := List Char

/-- The type `Dictionary`, a `std::unordered_set<std::string>`: only `insert`
and `count` are used on it. -/
abbrev Dictionary := List Word

/-- The values taken by `c` in `for (char c = 'A'; c <= 'Z'; ++c)`, in order. -/
def letters : List Char :=
  ['A', 'B', 'C', 'D', 'E', 'F', 'G', 'H', 'I', 'J', 'K', 'L', 'M',
   'N', 'O', 'P', 'Q', 'R', 'S', 'T', 'U', 'V', 'W', 'X', 'Y', 'Z']

/-- The lambda of `toUpper`: `std::toupper` in the "C" locale. -/
def toUpperChar (c : Char) : Char :=
  if 'a' ≤ c ∧ c ≤ 'z' then Char.ofNat (c.toNat - 32) else c

/-- The function `toUpper`: `std::transform` of the string in place. -/
def toUpper (s : Word) : Word := s.map toUpperChar

/-- The class `WordPath`. -/
structure WordPath where
  d_words : List Word
deriving DecidableEq, Repr

namespace WordPath

/-- The default constructor `WordPath()`. -/
def empty : WordPath := ⟨[]⟩

/-- The constructor `WordPath(w)`. -/
def single (w : Word) : WordPath := ⟨[] ++ [w]⟩

/-- The method `add`: `d_words.push_back(w)`. -/
def add (p : WordPath) (w : Word) : WordPath := ⟨p.d_words ++ [w]⟩

/-- The method `length`: `d_words.size()`. -/
def length (p : WordPath) : Nat := p.d_words.length

/-- The method `last`: `d_words.back()`, undefined (`none`) on an empty vector. -/
def last (p : WordPath) : Option Word := p.d_words.getLast?

/-- The method `terminatesAt`: `d_words.back() == w`.  Both callers read
`last()` of the same path first, which is where an empty vector is caught. -/
def terminatesAt (p : WordPath) (w : Word) : Bool := p.d_words.getLast? == some w

/-- The method `pop`: `d_words.pop_back()`. -/
def pop (p : WordPath) : WordPath := ⟨p.d_words.dropLast⟩

/-- The method `print`, as the text appended to the stream `o`.  The test
`i != nwords - 1` is only run with `0 < nwords`, where the unsigned
subtraction does not wrap. -/
def print (p : WordPath) (o : String) : String :=
  let nwords := p.d_words.length
  let o := o ++ "[ "
  let o := (List.range nwords).foldl
    (fun o i =>
      let o := o ++ String.mk (p.d_words.getD i [])
      if i ≠ nwords - 1 then o ++ " -> " else o) o
  o ++ " ]"

end WordPath

/-- The inner loop of `getAdjacentWords`, over the remaining letters:
`w[i] = c; if (dict.count(w) && c != skipLetter) adjacents.push_back(w);`.
It returns the mutated `w` and the vector `adjacents`. -/
def letterLoop (dict : Dictionary) (i : Nat) (skipLetter : Char) :
    List Char → Word → List Word → Word × List Word
  | [], w, adjacents => (w, adjacents)
  | c :: cs, w, adjacents =>
    let w := w.set i c
    if w ∈ dict ∧ c ≠ skipLetter then
      letterLoop dict i skipLetter cs w (adjacents ++ [w])
    else
      letterLoop dict i skipLetter cs w adjacents

/-- The function `getAdjacentWords`: the vector `adjacents` after the call.
The outer loop runs `i` over `0 .. wlen - 1`; `w[i]` is read with `i < wlen`. -/
def getAdjacentWords (adjacents : List Word) (word : Word) (dict : Dictionary) :
    List Word :=
  let wlen := word.length
  (List.range wlen).foldl
    (fun adjacents i =>
      let w := word
      let skipLetter := w.getD i 'A'
      (letterLoop dict i skipLetter letters w adjacents).2) adjacents

/-- The body of the loop over `neighbors` in `explore` and `findWordLadder`
(the same statements in both): `curPath` is the front of the deque, `rest`
the paths behind it. -/
def visitNeighbor (word : Word) (st : WordPath × List WordPath × List Word) :
    WordPath × List WordPath × List Word :=
  let (curPath, rest, visited) := st
  if word ∈ visited then
    (curPath, rest, visited)
  else
    let curPath := curPath.add word
    let rest := rest ++ [curPath]
    let visited := visited.insert word
    let curPath := curPath.pop
    (curPath, rest, visited)

/-- The loop over `neighbors`, followed by `toVisit.pop_front()`: the deque
and the visited set after them. -/
def expandFront (neighbors : List Word) (curPath : WordPath)
    (rest : List WordPath) (visited : List Word) : List WordPath × List Word :=
  let st := neighbors.foldl (fun st word => visitNeighbor word st) (curPath, rest, visited)
  (st.2.1, st.2.2)

/-- The local variables of `explore` that the loop changes. -/
structure ExploreState where
  toVisit : List WordPath
  visited : List Word
  longestWordPath : WordPath
deriving DecidableEq, Repr

/-- One iteration of the `while` loop of `explore`, entered with a non-empty
deque (`none` on an empty deque or on `last()` of an empty path). -/
def exploreIter (dict : Dictionary) (s : ExploreState) : Option ExploreState :=
  match s.toVisit with
  | [] => none
  | curPath :: rest =>
    let longestWordPath :=
      if curPath.length > s.longestWordPath.length then curPath else s.longestWordPath
    match curPath.last with
    | none => none
    | some curWord =>
      let neighbors := getAdjacentWords [] curWord dict
      let (toVisit, visited) := expandFront neighbors curPath rest s.visited
      some ⟨toVisit, visited, longestWordPath⟩

/-- The `while (!toVisit.empty())` loop of `explore`, on fuel. -/
def exploreLoop (dict : Dictionary) : Nat → ExploreState → Option ExploreState
  | 0, _ => none
  | fuel + 1, s =>
    if s.toVisit.isEmpty then some s
    else (exploreIter dict s).bind (exploreLoop dict fuel)

/-- The state of `explore` when its loop is entered. -/
def exploreInit (beginWord : Word) : ExploreState :=
  ⟨[] ++ [WordPath.single beginWord], ([] : List Word).insert beginWord, WordPath.empty⟩

/-- The state of `explore(dict, beginWord)` when its loop has ended.  The loop
runs once per visited word, so `dict.length + 2` is fuel enough. -/
def exploreRun (dict : Dictionary) (beginWord : Word) : Option ExploreState :=
  exploreLoop dict (dict.length + 2) (exploreInit beginWord)

/-- The paths at the front of the deque in the successive iterations of the
loop of `explore`, from state `s` on. -/
def exploreDequeued (dict : Dictionary) : Nat → ExploreState → List WordPath
  | 0, _ => []
  | fuel + 1, s =>
    match s.toVisit with
    | [] => []
    | curPath :: _ =>
      match exploreIter dict s with
      | none => [curPath]
      | some s' => curPath :: exploreDequeued dict fuel s'

/-- The function `explore(dict, beginWord)`: the text written to `std::cout`. -/
def explore (dict : Dictionary) (beginWord : Word) : Option String :=
  (exploreRun dict beginWord).map fun s =>
    "Connected component of " ++ String.mk beginWord
      ++ " has " ++ toString s.visited.length ++ " elements.\n"
      ++ "A longest path starting from "
      ++ String.mk beginWord ++ ": " ++ s.longestWordPath.print "" ++ " is of length "
      ++ toString s.longestWordPath.length ++ "\n"

/-- The local variables of `findWordLadder` that the loop changes. -/
structure LadderState where
  toVisit : List WordPath
  visited : List Word
deriving DecidableEq, Repr

/-- How the loop of `findWordLadder` is left: by `return` with the path
printed, or with the deque empty. -/
inductive LadderOutcome where
  | found (curPath : WordPath)
  | notFound
deriving DecidableEq, Repr

/-- One iteration of the `while` loop of `findWordLadder`, entered with a
non-empty deque: either the path returned, or the next state. -/
def ladderIter (dict : Dictionary) (endWord : Word) (s : LadderState) :
    Option (WordPath ⊕ LadderState) :=
  match s.toVisit with
  | [] => none
  | curPath :: rest =>
    match curPath.last with
    | none => none
    | some curWord =>
      if curPath.terminatesAt endWord then
        some (Sum.inl curPath)
      else
        let neighbors := getAdjacentWords [] curWord dict
        let (toVisit, visited) := expandFront neighbors curPath rest s.visited
        some (Sum.inr ⟨toVisit, visited⟩)

/-- The `while (!toVisit.empty())` loop of `findWordLadder`, on fuel. -/
def findWordLadderLoop (dict : Dictionary) (endWord : Word) :
    Nat → LadderState → Option LadderOutcome
  | 0, _ => none
  | fuel + 1, s =>
    if s.toVisit.isEmpty then some LadderOutcome.notFound
    else
      match ladderIter dict endWord s with
      | none => none
      | some (Sum.inl curPath) => some (LadderOutcome.found curPath)
      | some (Sum.inr s') => findWordLadderLoop dict endWord fuel s'

/-- The state of `findWordLadder` when its loop is entered. -/
def ladderInit (beginWord : Word) : LadderState :=
  ⟨[] ++ [WordPath.single beginWord], ([] : List Word).insert beginWord⟩

/-- How `findWordLadder(dict, beginWord, endWord)` ends.  The loop runs at
most once per visited word, so `dict.length + 2` is fuel enough. -/
def findWordLadderOutcome (dict : Dictionary) (beginWord endWord : Word) :
    Option LadderOutcome :=
  findWordLadderLoop dict endWord (dict.length + 2) (ladderInit beginWord)

/-- The function `findWordLadder`: the text written to `std::cout`. -/
def findWordLadder (dict : Dictionary) (beginWord endWord : Word) : Option String :=
  (findWordLadderOutcome dict beginWord endWord).map fun r =>
    match r with
    | LadderOutcome.found curPath => curPath.print "" ++ "\n"
    | LadderOutcome.notFound => "No word ladder found.\n"

/-- The function `loadDictionary`: `file` holds the lines of the file at
`path`, and is `none` when the file cannot be opened.  It returns the `bool`,
the dictionary `d` after the call and the text written to `std::cerr`. -/
def loadDictionary (d : Dictionary) (file : Option (List Word)) :
    Bool × Dictionary × String :=
  match file with
  | none => (false, d, "Failed to read dictionary file.\n")
  | some lines => (true, lines.foldl (fun d word => d.insert word) d, "")

/-- What a run of the program leaves behind: the value returned to `main`
and the text written to the two streams. -/
structure ProgramRun where
  exitCode : Int
  cout : String
  cerr : String
deriving DecidableEq, Repr

/-- The function `ladder(argc, argv)`, with `search` in the place of the call
of `findWordLadder` and `files` giving the lines of the file at a path. -/
def ladderWith (search : Dictionary → Word → Word → Option String)
    (files : Word → Option (List Word)) (argc : Int) (argv : List Word) :
    Option ProgramRun :=
  if argc ≠ 4 then
    some ⟨1, "", "Invalid number of arguments.\n"⟩
  else
    let dictPath := argv.getD 1 []
    let beginWord := toUpper (argv.getD 2 [])
    let endWord := toUpper (argv.getD 3 [])
    let (ok, dict, err) := loadDictionary [] (files dictPath)
    if !ok then
      some ⟨2, "", err⟩
    else if beginWord ∉ dict then
      some ⟨3, "Word " ++ String.mk beginWord ++ " is not in dictionary.\n", err⟩
    else if endWord ∉ dict then
      some ⟨3, "Word " ++ String.mk endWord ++ " is not in dictionary.\n", err⟩
    else if beginWord.length ≠ endWord.length then
      some ⟨4, "Word lengths must equal.\n", err⟩
    else
      (search dict beginWord endWord).map fun out => ⟨0, out, err⟩

/-- The function `ladder(argc, argv)`. -/
def ladder (files : Word → Option (List Word)) (argc : Int) (argv : List Word) :
    Option ProgramRun :=
  ladderWith findWordLadder files argc argv

/-- The function `explore(argc, argv)` of explore mode, with `files` giving
the lines of the file at a path. -/
def exploreMain (files : Word → Option (List Word)) (argc : Int) (argv : List Word) :
    Option ProgramRun :=
  if argc ≠ 3 then
    some ⟨1, "", "Invalid number of arguments.\n"⟩
  else
    let dictPath := argv.getD 1 []
    let beginWord := toUpper (argv.getD 2 [])
    let (ok, dict, err) := loadDictionary [] (files dictPath)
    if !ok then
      some ⟨2, "", err⟩
    else if beginWord ∉ dict then
      some ⟨3, "Word " ++ String.mk beginWord ++ " is not in dictionary.\n", err⟩
    else
      (explore dict beginWord).map fun out => ⟨0, out, err⟩

/-- The function `main`. -/
def main (files : Word → Option (List Word)) (argc : Int) (argv : List Word) :
    Option ProgramRun :=
  if argc = 4 then ladder files argc argv else exploreMain files argc argv

/-! ## Notions of the specification -/

/-- The number of positions at which two words differ. -/
def hamming (u v : Word) : Nat :=
  ((u.zip v).filter fun p => decide (p.1 ≠ p.2)).length

/-- Two words have the same length and differ in exactly one position: an
edge of the word-ladder graph. -/
def differInOne (u v : Word) : Prop := u.length = v.length ∧ hamming u v = 1

instance (u v : Word) : Decidable (differInOne u v) := by
  unfold differInOne; infer_instance

/-- The list of section 4.1 of the specification: positions in ascending
order, within a position the letters in ascending order, keeping the word
with position `i` replaced by `c` when `c` differs from the character at `i`
and the replaced word is in the dictionary. -/
def neighborsSpec (word : Word) (dict : Dictionary) : List Word :=
  (List.range word.length).flatMap fun i =>
    (letters.filter fun c => decide (word[i]? ≠ some c ∧ word.set i c ∈ dict)).map
      fun c => word.set i c

/-- A word made of the letters `'A'..'Z'` only. -/
def upperWord (w : Word) : Prop := ∀ c ∈ w, c ∈ letters

/-- A dictionary whose entries are made of the letters `'A'..'Z'` only. -/
def upperDict (dict : Dictionary) : Prop := ∀ w ∈ dict, upperWord w

instance (w : Word) : Decidable (upperWord w) := by
  unfold upperWord; infer_instance

instance (dict : Dictionary) : Decidable (upperDict dict) := by
  unfold upperDict; infer_instance

/-- A sequence of dictionary words from `b` to `e` in which consecutive words
differ in exactly one position. -/
def IsLadder (dict : Dictionary) (b e : Word) (l : List Word) : Prop :=
  (∀ w ∈ l, w ∈ dict) ∧ l.Chain' differInOne ∧ l.head? = some b ∧ l.getLast? = some e

/-- One step of the graph that `getAdjacentWords` defines. -/
def adjStep (dict : Dictionary) (u v : Word) : Prop := v ∈ getAdjacentWords [] u dict

instance (dict : Dictionary) (u v : Word) : Decidable (adjStep dict u v) := by
  unfold adjStep; infer_instance

/-- The word `w` is reachable from `b` by a chain of `getAdjacentWords` steps. -/
def Reachable (dict : Dictionary) (b w : Word) : Prop :=
  Relation.ReflTransGen (adjStep dict) b w

/-- There is a chain of exactly `n` `getAdjacentWords` steps from `b` to the word. -/
inductive WalkN (dict : Dictionary) (b : Word) : Nat → Word → Prop
  | start : WalkN dict b 0 b
  | step {n : Nat} {u v : Word} : WalkN dict b n u → adjStep dict u v → WalkN dict b (n + 1) v

/-- The shortest-path distance from `b` to `w`, in `getAdjacentWords` steps, is `n`. -/
def IsDist (dict : Dictionary) (b w : Word) (n : Nat) : Prop :=
  WalkN dict b n w ∧ ∀ m, WalkN dict b m w → n ≤ m

/-- The eccentricity of `b` is `n`: the greatest distance from `b` to a
reachable word. -/
def IsEccentricity (dict : Dictionary) (b : Word) (n : Nat) : Prop :=
  (∃ w, IsDist dict b w n) ∧ ∀ w m, IsDist dict b w m → m ≤ n

/-- An edge of the undirected word-ladder graph on the dictionary. -/
def ladderEdge (dict : Dictionary) (u v : Word) : Prop :=
  u ∈ dict ∧ v ∈ dict ∧ differInOne u v

/-- The word `w` is in the connected component of `b` in the word-ladder graph. -/
def Connected (dict : Dictionary) (b w : Word) : Prop :=
  Relation.ReflTransGen (ladderEdge dict) b w

/-- The number of dictionary entries not yet visited. -/
def unvisited (dict : Dictionary) (visited : List Word) : Nat :=
  (dict.filter fun w => decide (w ∉ visited)).length

/-- The neighbours of `w` that are not in `visited`, in generator order. -/
def newWords (dict : Dictionary) (w : Word) (visited : List Word) : List Word :=
  (getAdjacentWords [] w dict).filter fun x => decide (x ∉ visited)

/-- The invariant of the traversal loops: `done` are the paths dequeued so
far, `toVisit` the deque, `visited` the visited set. -/
structure Inv (dict : Dictionary) (b : Word) (done toVisit : List WordPath)
    (visited : List Word) : Prop where
  valid : ∀ p ∈ done ++ toVisit,
    p.d_words.head? = some b ∧ p.d_words.Chain' (adjStep dict)
  lasts : ((done ++ toVisit).map WordPath.last).Perm (visited.map some)
  nodup : visited.Nodup
  sorted : (done ++ toVisit).Pairwise fun p q => p.length ≤ q.length
  window : ∀ p ∈ toVisit, ∀ q ∈ toVisit, q.length ≤ p.length + 1
  shortest : ∀ p ∈ done ++ toVisit, ∀ w, p.last = some w →
    ∀ n, WalkN dict b n w → p.length ≤ n + 1
  closed : ∀ p ∈ done, ∀ w, p.last = some w → ∀ v, adjStep dict w v → v ∈ visited
  mem_begin : b ∈ visited

/-- The invariant of `longestWordPath` in `explore`: one of the longest paths
dequeued so far. -/
def LongestInv (done : List WordPath) (longest : WordPath) : Prop :=
  (done = [] ∧ longest = WordPath.empty) ∨
    (longest ∈ done ∧ ∀ p ∈ done, p.length ≤ longest.length)

/-! ## The traversals, iteration by iteration -/

/-- The state of `explore(dict, beginWord)` after `n` iterations of its loop
(`none` when the loop does not run that many iterations). -/
def exploreAfter (dict : Dictionary) (beginWord : Word) : Nat → Option ExploreState
  | 0 => some (exploreInit beginWord)
  | n + 1 => (exploreAfter dict beginWord n).bind (exploreIter dict)

/-- The state of `findWordLadder(dict, beginWord, endWord)` after `n`
iterations of its loop that did not return (`none` when the loop does not
run that many iterations). -/
def ladderAfter (dict : Dictionary) (beginWord endWord : Word) : Nat → Option LadderState
  | 0 => some (ladderInit beginWord)
  | n + 1 =>
    (ladderAfter dict beginWord endWord n).bind fun s =>
      match ladderIter dict endWord s with
      | some (Sum.inr s') => some s'
      | _ => none

/-- The paths at the front of the deque in the successive iterations of the
loop of `findWordLadder`, from state `s` on; the path that is returned is the
last of them. -/
def ladderDequeued (dict : Dictionary) (endWord : Word) : Nat → LadderState → List WordPath
  | 0, _ => []
  | fuel + 1, s =>
    match s.toVisit with
    | [] => []
    | curPath :: _ =>
      match ladderIter dict endWord s with
      | some (Sum.inr s') => curPath :: ladderDequeued dict endWord fuel s'
      | _ => [curPath]

/-- A sequence of paths cut off at the first path whose last word is `endWord`
(that path is kept, the paths behind it are not). -/
def cutAt (endWord : Word) : List WordPath → List WordPath
  | [] => []
  | p :: ps => if p.last = some endWord then [p] else p :: cutAt endWord ps

/-- The path `longest` is the first of the longest paths of `done`. -/
def FirstLongest (done : List WordPath) (longest : WordPath) : Prop :=
  ∃ A B, done = A ++ longest :: B ∧ (∀ a ∈ A, a.length < longest.length) ∧
    ∀ q ∈ B, q.length ≤ longest.length

/-- The words of a path joined by `" -> "`, with no separator after the last
word. -/
def arrowJoin : List Word → String
  | [] => ""
  | [w] => String.mk w
  | w :: w' :: ws => String.mk w ++ " -> " ++ arrowJoin (w' :: ws)

/-- The word holds a lower-case ASCII letter. -/
def hasLower (w : Word) : Prop := ∃ c ∈ w, 'a' ≤ c ∧ c ≤ 'z'

instance (w : Word) : Decidable (hasLower w) := by
  unfold hasLower; infer_instance

/-- The values of `w` on which `getAdjacentWords(adjacents, word, dict)` calls
`dict.count(w)`: `word` with position `i` set to `c`, for every position and
every letter `'A'..'Z'` (the letter of `word` included). -/
def testedCandidates (word : Word) : List Word :=
  (List.range word.length).flatMap fun i => letters.map fun c => word.set i c

/-- The pair (position changed, new letter) of the step from `u` to `v`: the
first position at which the two words differ and the character of `v` there. -/
def stepKey : Word → Word → Nat × Char
  | a :: u, c :: v => if a ≠ c then (0, c) else ((stepKey u v).1 + 1, (stepKey u v).2)
  | _, _ => (0, 'A')

/-- The pairs (position changed, new letter) of the successive steps of a
sequence of words. -/
def pathKeys : List Word → List (Nat × Char)
  | u :: v :: l => stepKey u v :: pathKeys (v :: l)
  | _ => []

/-- The order in which `getAdjacentWords` enumerates steps: by position, and
by letter within a position. -/
def keyLt (k k' : Nat × Char) : Prop := k.1 < k'.1 ∨ (k.1 = k'.1 ∧ k.2 < k'.2)

instance (k k' : Nat × Char) : Decidable (keyLt k k') := by
  unfold keyLt; infer_instance

/-- The order of the traversal: `p` comes before `q` when it is shorter, or
as long and before `q` in the lexicographic order of the steps. -/
def pathLt (p q : WordPath) : Prop :=
  p.length < q.length ∨
    (p.length = q.length ∧ List.Lex keyLt (pathKeys p.d_words) (pathKeys q.d_words))

/-- The invariant behind the order of discovery: the dequeued paths and the
deque are in the order of the traversal, every one of them comes first among
the walks of its length to its last word, and each longer one extends a
dequeued path. -/
structure LexInv (dict : Dictionary) (b : Word) (done toVisit : List WordPath) : Prop where
  ordered : (done ++ toVisit).Pairwise pathLt
  first : ∀ p ∈ done ++ toVisit, ∀ l : List Word, l.head? = some b →
    l.Chain' (adjStep dict) → l.getLast? = p.last → l.length = p.length →
    l = p.d_words ∨ List.Lex keyLt (pathKeys p.d_words) (pathKeys l)
  parent : ∀ p ∈ done ++ toVisit, 2 ≤ p.length → p.pop ∈ done

/-- The shortest ladder of dictionary words from `b` to `w` has `n + 1` words:
the shortest-path distance from `b` to `w` in the word-ladder graph on the
dictionary is `n`. -/
def IsLadderDist (dict : Dictionary) (b w : Word) (n : Nat) : Prop :=
  (∃ l, IsLadder dict b w l ∧ l.length = n + 1) ∧
    ∀ l, IsLadder dict b w l → n + 1 ≤ l.length

/-! ## Words at distance one -/

theorem hamming_nil_left (v : Word) : hamming [] v = 0 := by simp [hamming]

theorem hamming_cons (a b : Char) (u v : Word) :
    hamming (a :: u) (b :: v) = (if a = b then 0 else 1) + hamming u v := by
  by_cases h : a = b <;> simp [hamming, h, List.filter_cons, Nat.add_comm]

theorem hamming_self (u : Word) : hamming u u = 0 := by
  induction u with
  | nil => rfl
  | cons a u ih => simp [hamming_cons, ih]

theorem eq_of_hamming_zero : ∀ (u v : Word), u.length = v.length → hamming u v = 0 → u = v
  | [], [], _, _ => rfl
  | [], _ :: _, h, _ => by simp at h
  | _ :: _, [], h, _ => by simp at h
  | a :: u, b :: v, h, h0 => by
    rw [hamming_cons] at h0
    by_cases hab : a = b
    · simp [hab] at h0
      simp at h
      rw [hab, eq_of_hamming_zero u v h h0]
    · simp [hab] at h0

theorem hamming_set (u : Word) (i : Nat) (c : Char) (h : i < u.length) :
    hamming u (u.set i c) = if u[i] = c then 0 else 1 := by
  induction u generalizing i with
  | nil => simp at h
  | cons a u ih =>
    cases i with
    | zero => simp [hamming_cons, hamming_self]
    | succ i =>
      simp at h
      simp [hamming_cons, ih i h]

theorem differInOne_iff (u v : Word) :
    differInOne u v ↔ ∃ (i : Nat) (h : i < u.length) (c : Char), c ≠ u[i] ∧ v = u.set i c := by
  constructor
  · rintro ⟨hl, hh⟩
    induction u generalizing v with
    | nil => simp [hamming_nil_left] at hh
    | cons a u ih =>
      cases v with
      | nil => simp at hl
      | cons b v =>
        simp at hl
        rw [hamming_cons] at hh
        by_cases hab : a = b
        · simp [hab] at hh
          obtain ⟨i, hi, c, hc, hv⟩ := ih v hl hh
          exact ⟨i + 1, by simpa using hi, c, by simpa using hc, by simp [hab, hv]⟩
        · simp [hab] at hh
          have := eq_of_hamming_zero u v hl hh
          exact ⟨0, by simp, b, by simpa using fun h => hab h.symm, by simp [this]⟩
  · rintro ⟨i, hi, c, hc, rfl⟩
    refine ⟨by simp, ?_⟩
    rw [hamming_set u i c hi]
    have : ¬ u[i] = c := fun h => hc h.symm
    simp [this]

/-! ## The adjacency generator -/

theorem letterLoop_snd (dict : Dictionary) (i : Nat) (sk : Char) (cs : List Char)
    (w : Word) (adj : List Word) :
    (letterLoop dict i sk cs w adj).2 =
      adj ++ (cs.filter fun c => decide (w.set i c ∈ dict ∧ c ≠ sk)).map fun c => w.set i c := by
  induction cs generalizing w adj with
  | nil => simp [letterLoop]
  | cons c cs ih =>
    simp only [letterLoop]
    split
    · next h =>
      rw [ih]
      simp [List.filter_cons, h, List.set_set]
    · next h =>
      rw [ih]
      simp [List.filter_cons, h, List.set_set]

theorem foldl_append_eq_flatMap {α β : Type} (f : α → List β) (l : List α) (init : List β) :
    l.foldl (fun acc a => acc ++ f a) init = init ++ l.flatMap f := by
  induction l generalizing init with
  | nil => simp
  | cons a l ih => simp [ih]

theorem getAdjacentWords_eq (adjacents : List Word) (word : Word) (dict : Dictionary) :
    getAdjacentWords adjacents word dict = adjacents ++ neighborsSpec word dict := by
  unfold getAdjacentWords neighborsSpec
  simp only [letterLoop_snd]
  rw [foldl_append_eq_flatMap]
  congr 1
  apply List.flatMap_congr
  intro i hi
  have hi : i < word.length := List.mem_range.mp hi
  congr 1
  apply List.filter_congr
  intro c _
  simp [List.getD_eq_getElem?_getD, List.getElem?_eq_getElem hi, and_comm, eq_comm]

theorem letters_nodup : letters.Nodup := by decide

theorem mem_neighborsSpec (u v : Word) (dict : Dictionary) :
    v ∈ neighborsSpec u dict ↔
      ∃ (i : Nat) (h : i < u.length) (c : Char),
        c ∈ letters ∧ c ≠ u[i] ∧ v = u.set i c ∧ v ∈ dict := by
  unfold neighborsSpec
  simp only [List.mem_flatMap, List.mem_range, List.mem_map, List.mem_filter,
    decide_eq_true_eq]
  constructor
  · rintro ⟨i, hi, c, ⟨hc, hne, hd⟩, rfl⟩
    refine ⟨i, hi, c, hc, ?_, rfl, hd⟩
    intro h
    exact hne (by rw [List.getElem?_eq_getElem hi, h])
  · rintro ⟨i, hi, c, hc, hne, rfl, hd⟩
    refine ⟨i, hi, c, ⟨hc, ?_, hd⟩, rfl⟩
    rw [List.getElem?_eq_getElem hi]
    intro h
    exact hne (Option.some.inj h).symm

theorem set_inj_letter (u : Word) (i : Nat) (h : i < u.length) (c d : Char)
    (e : u.set i c = u.set i d) : c = d := by
  have := congrArg (fun l => l[i]?) e
  simpa [List.getElem?_set, h] using this

theorem set_ne_of_pos_ne (u : Word) (i j : Nat) (hi : i < u.length) (hij : i ≠ j) (c d : Char)
    (hc : c ≠ u[i]) : u.set i c ≠ u.set j d := by
  intro e
  have := congrArg (fun l => l[i]?) e
  simp [List.getElem?_set, hi, hij, Ne.symm hij] at this
  exact hc this

theorem neighborsSpec_nodup (u : Word) (dict : Dictionary) : (neighborsSpec u dict).Nodup := by
  unfold neighborsSpec
  rw [List.nodup_flatMap]
  refine ⟨?_, ?_⟩
  · intro i hi
    have hi : i < u.length := List.mem_range.mp hi
    apply List.Nodup.map_on
    · intro c _ d _ e
      exact set_inj_letter u i hi c d e
    · exact letters_nodup.filter _
  · apply List.Nodup.pairwise_of_forall_ne (List.nodup_range _)
    intro i hi j _ hij
    have hi : i < u.length := List.mem_range.mp hi
    intro w hw1 hw2
    simp only [List.mem_map, List.mem_filter, decide_eq_true_eq] at hw1 hw2
    obtain ⟨c, ⟨_, hc, _⟩, rfl⟩ := hw1
    obtain ⟨d, _, e⟩ := hw2
    refine set_ne_of_pos_ne u i j hi hij c d ?_ e.symm
    intro h
    exact hc (by rw [List.getElem?_eq_getElem hi, h])

theorem mem_letters (c : Char) : c ∈ letters ↔ 'A' ≤ c ∧ c ≤ 'Z' := by
  constructor
  · revert c
    decide
  · rintro ⟨h1, h2⟩
    have h1 : 65 ≤ c.toNat := h1
    have h2 : c.toNat ≤ 90 := h2
    have hc : c = Char.ofNat c.toNat := by simp
    rw [hc]
    generalize c.toNat = n at h1 h2
    interval_cases n <;> decide

theorem mem_getAdjacentWords (u v : Word) (dict : Dictionary) :
    v ∈ getAdjacentWords [] u dict ↔
      ∃ (i : Nat) (h : i < u.length) (c : Char),
        c ∈ letters ∧ c ≠ u[i] ∧ v = u.set i c ∧ v ∈ dict := by
  rw [getAdjacentWords_eq, List.nil_append, mem_neighborsSpec]

theorem adjStep_differInOne {dict : Dictionary} {u v : Word} (h : adjStep dict u v) :
    differInOne u v := by
  obtain ⟨i, hi, c, _, hc, hv, _⟩ := (mem_getAdjacentWords u v dict).mp h
  exact (differInOne_iff u v).mpr ⟨i, hi, c, hc, hv⟩

theorem adjStep_mem_dict {dict : Dictionary} {u v : Word} (h : adjStep dict u v) :
    v ∈ dict := by
  obtain ⟨_, _, _, _, _, _, hd⟩ := (mem_getAdjacentWords u v dict).mp h
  exact hd

theorem differInOne_ne {u v : Word} (h : differInOne u v) : v ≠ u := by
  rintro rfl
  have := h.2
  rw [hamming_self] at this
  exact absurd this (by decide)

/-- Membership in the generated list: the dictionary entries of the same
length that differ from the word in exactly one position and carry a letter
`'A'..'Z'` there. -/
theorem mem_getAdjacentWords_iff (u v : Word) (dict : Dictionary) :
    v ∈ getAdjacentWords [] u dict ↔
      v ∈ dict ∧ differInOne u v ∧
        ∀ i : Nat, u[i]? ≠ v[i]? → ∃ c ∈ letters, v[i]? = some c := by
  constructor
  · intro h
    refine ⟨adjStep_mem_dict h, adjStep_differInOne h, ?_⟩
    obtain ⟨i, hi, c, hc, _, hv, _⟩ := (mem_getAdjacentWords u v dict).mp h
    intro j hj
    subst hv
    by_cases hij : i = j
    · subst hij
      exact ⟨c, hc, by simp [List.getElem?_set, hi]⟩
    · exact absurd (by simp [List.getElem?_set, hij]) hj
  · rintro ⟨hd, hdiff, hup⟩
    obtain ⟨i, hi, c, hc, hv⟩ := (differInOne_iff u v).mp hdiff
    refine (mem_getAdjacentWords u v dict).mpr ⟨i, hi, c, ?_, hc, hv, hd⟩
    subst hv
    have hne : u[i]? ≠ (u.set i c)[i]? := by
      simp only [List.getElem?_set, hi, if_true, List.getElem?_eq_getElem hi]
      intro h
      exact hc (Option.some.inj h).symm
    obtain ⟨c', hc', e⟩ := hup i hne
    simp only [List.getElem?_set, hi, if_true] at e
    cases e
    exact hc'

theorem upperDict_getElem {dict : Dictionary} (hU : upperDict dict) {v : Word} (hv : v ∈ dict)
    (i : Nat) (h : i < v.length) : v[i] ∈ letters :=
  hU v hv _ (List.getElem_mem h)

/-- On a dictionary of upper-case words the generated neighbours are the
neighbours in the word-ladder graph. -/
theorem adjStep_iff_of_upper {dict : Dictionary} (hU : upperDict dict) (u v : Word) :
    adjStep dict u v ↔ v ∈ dict ∧ differInOne u v := by
  unfold adjStep
  rw [mem_getAdjacentWords_iff]
  constructor
  · rintro ⟨h1, h2, _⟩
    exact ⟨h1, h2⟩
  · rintro ⟨h1, h2⟩
    refine ⟨h1, h2, ?_⟩
    intro i _
    by_cases hi : i < v.length
    · exact ⟨v[i], upperDict_getElem hU h1 i hi, List.getElem?_eq_getElem hi⟩
    · exfalso
      have hi2 : ¬ i < u.length := by rw [h2.1]; exact hi
      rename_i hne
      apply hne
      rw [List.getElem?_eq_none (Nat.le_of_not_lt hi), List.getElem?_eq_none (Nat.le_of_not_lt hi2)]

theorem getAdjacentWords_nodup (word : Word) (dict : Dictionary) :
    (getAdjacentWords [] word dict).Nodup := by
  rw [getAdjacentWords_eq, List.nil_append]
  exact neighborsSpec_nodup word dict

/-- C6: called with an empty output vector, `getAdjacentWords` returns the
list that enumerates the positions in ascending order and, within a position,
the letters `'A'..'Z'` in ascending order, keeping the word with position `i`
replaced by `c` exactly when `c` differs from the character at `i` and the
replaced word is in the dictionary. -/
theorem getAdjacentWords_eq_neighborsSpec (word : Word) (dict : Dictionary) :
    getAdjacentWords [] word dict = neighborsSpec word dict := by
  rw [getAdjacentWords_eq, List.nil_append]

/-- C7: every element returned by `getAdjacentWords` has the length of the
word, is not the word, differs from it in exactly one position and is in the
dictionary, and the returned list holds no element twice. -/
theorem getAdjacentWords_sound (word : Word) (dict : Dictionary) :
    (∀ v ∈ getAdjacentWords [] word dict,
      v.length = word.length ∧ v ≠ word ∧ differInOne word v ∧ v ∈ dict) ∧
    (getAdjacentWords [] word dict).Nodup := by
  refine ⟨?_, ?_⟩
  · intro v hv
    have hv' : adjStep dict word v := hv
    have hd := adjStep_differInOne hv'
    exact ⟨hd.1.symm, differInOne_ne hd, hd, adjStep_mem_dict hv'⟩
  · exact getAdjacentWords_nodup word dict

/-- C8, against the claim as stated: the dictionary entry `cot` has the
length of `cat` and differs from it in exactly one position, and
`getAdjacentWords` does not return it. -/
theorem getAdjacentWords_misses_lowercase :
    ['c', 'o', 't'] ∈ [['c', 'a', 't'], ['c', 'o', 't']] ∧
    differInOne ['c', 'a', 't'] ['c', 'o', 't'] ∧
    ['c', 'o', 't'] ∉ getAdjacentWords [] ['c', 'a', 't'] [['c', 'a', 't'], ['c', 'o', 't']] := by
  decide

/-- C8, amended: `getAdjacentWords` returns exactly the dictionary entries
that have the length of the word, differ from it in exactly one position and
have one of the letters `'A'..'Z'` at that position. -/
theorem getAdjacentWords_complete (word v : Word) (dict : Dictionary) :
    v ∈ getAdjacentWords [] word dict ↔
      v ∈ dict ∧ v.length = word.length ∧ hamming word v = 1 ∧
        ∀ i : Nat, word[i]? ≠ v[i]? → ∃ c, 'A' ≤ c ∧ c ≤ 'Z' ∧ v[i]? = some c := by
  rw [mem_getAdjacentWords_iff]
  simp only [differInOne, mem_letters]
  constructor
  · rintro ⟨h1, ⟨h2, h3⟩, h4⟩
    refine ⟨h1, h2.symm, h3, fun i hi => ?_⟩
    obtain ⟨c, ⟨hc1, hc2⟩, hc3⟩ := h4 i hi
    exact ⟨c, hc1, hc2, hc3⟩
  · rintro ⟨h1, h2, h3, h4⟩
    refine ⟨h1, ⟨h2.symm, h3⟩, fun i hi => ?_⟩
    obtain ⟨c, hc1, hc2, hc3⟩ := h4 i hi
    exact ⟨c, ⟨hc1, hc2⟩, hc3⟩

/-! ## One iteration of the traversal -/

theorem WordPath.pop_add (p : WordPath) (w : Word) : (p.add w).pop = p := by
  simp [WordPath.add, WordPath.pop]

theorem WordPath.length_add (p : WordPath) (w : Word) : (p.add w).length = p.length + 1 := by
  simp [WordPath.add, WordPath.length]

theorem WordPath.last_add (p : WordPath) (w : Word) : (p.add w).last = some w := by
  simp [WordPath.add, WordPath.last]

theorem visitNeighbor_of_mem {word : Word} {p : WordPath} {rest : List WordPath}
    {V : List Word} (h : word ∈ V) : visitNeighbor word (p, rest, V) = (p, rest, V) := by
  simp [visitNeighbor, h]

theorem visitNeighbor_of_not_mem {word : Word} {p : WordPath} {rest : List WordPath}
    {V : List Word} (h : word ∉ V) :
    visitNeighbor word (p, rest, V) = (p, rest ++ [p.add word], word :: V) := by
  simp [visitNeighbor, h, WordPath.pop_add, List.insert_of_not_mem]

theorem foldl_visitNeighbor (nb : List Word) (hnd : nb.Nodup) (p : WordPath)
    (rest : List WordPath) (V : List Word) :
    nb.foldl (fun st word => visitNeighbor word st) (p, rest, V) =
      (p, rest ++ (nb.filter fun x => decide (x ∉ V)).map p.add,
        (nb.filter fun x => decide (x ∉ V)).reverse ++ V) := by
  induction nb generalizing rest V with
  | nil => simp
  | cons w ws ih =>
    have hw : w ∉ ws := (List.nodup_cons.mp hnd).1
    have hws : ws.Nodup := (List.nodup_cons.mp hnd).2
    rw [List.foldl_cons]
    by_cases h : w ∈ V
    · rw [visitNeighbor_of_mem h, ih hws]
      simp [List.filter_cons, h]
    · rw [visitNeighbor_of_not_mem h, ih hws]
      have hf : (ws.filter fun x => decide (x ∉ w :: V)) = ws.filter fun x => decide (x ∉ V) := by
        apply List.filter_congr
        intro x hx
        have : x ≠ w := fun e => hw (e ▸ hx)
        simp [this]
      rw [hf]
      simp [List.filter_cons, h]

theorem expandFront_eq (dict : Dictionary) (w : Word) (p : WordPath) (rest : List WordPath)
    (V : List Word) :
    expandFront (getAdjacentWords [] w dict) p rest V =
      (rest ++ (newWords dict w V).map p.add, (newWords dict w V).reverse ++ V) := by
  unfold expandFront
  rw [foldl_visitNeighbor _ (getAdjacentWords_nodup w dict)]
  rfl

theorem exploreIter_cons (dict : Dictionary) (s : ExploreState) (p : WordPath)
    (rest : List WordPath) (w : Word) (hq : s.toVisit = p :: rest) (hw : p.last = some w) :
    exploreIter dict s =
      some ⟨rest ++ (newWords dict w s.visited).map p.add,
        (newWords dict w s.visited).reverse ++ s.visited,
        if p.length > s.longestWordPath.length then p else s.longestWordPath⟩ := by
  simp [exploreIter, hq, hw, expandFront_eq]

theorem terminatesAt_iff (p : WordPath) (w : Word) :
    p.terminatesAt w = true ↔ p.last = some w := by
  simp [WordPath.terminatesAt, WordPath.last]

theorem ladderIter_found (dict : Dictionary) (endWord : Word) (s : LadderState) (p : WordPath)
    (rest : List WordPath) (hq : s.toVisit = p :: rest) (hw : p.last = some endWord) :
    ladderIter dict endWord s = some (Sum.inl p) := by
  have := (terminatesAt_iff p endWord).mpr hw
  simp [ladderIter, hq, hw, this]

theorem ladderIter_next (dict : Dictionary) (endWord : Word) (s : LadderState) (p : WordPath)
    (rest : List WordPath) (w : Word) (hq : s.toVisit = p :: rest) (hw : p.last = some w)
    (hne : w ≠ endWord) :
    ladderIter dict endWord s =
      some (Sum.inr ⟨rest ++ (newWords dict w s.visited).map p.add,
        (newWords dict w s.visited).reverse ++ s.visited⟩) := by
  have : ¬ p.terminatesAt endWord = true := by
    rw [terminatesAt_iff, hw]
    intro h
    exact hne (Option.some.inj h)
  simp [ladderIter, hq, hw, this, expandFront_eq]

/-! ## The measure of the loops -/

theorem newWords_subset_dict {dict : Dictionary} {w x : Word} {V : List Word}
    (h : x ∈ newWords dict w V) : x ∈ dict ∧ x ∉ V ∧ adjStep dict w x := by
  unfold newWords at h
  simp only [List.mem_filter, decide_eq_true_eq] at h
  have h1 : adjStep dict w x := h.1
  exact ⟨adjStep_mem_dict h1, h.2, h1⟩

theorem mem_newWords {dict : Dictionary} {w x : Word} {V : List Word} :
    x ∈ newWords dict w V ↔ adjStep dict w x ∧ x ∉ V := by
  simp [newWords, adjStep]

theorem newWords_nodup (dict : Dictionary) (w : Word) (V : List Word) :
    (newWords dict w V).Nodup :=
  (getAdjacentWords_nodup w dict).filter _

theorem unvisited_cons (d : Word) (dict : Dictionary) (V : List Word) :
    unvisited (d :: dict) V = (if d ∈ V then 0 else 1) + unvisited dict V := by
  unfold unvisited
  by_cases h : d ∈ V <;> simp [List.filter_cons, h, Nat.add_comm]

theorem unvisited_le (dict : Dictionary) (V W : List Word) (h : ∀ x ∈ V, x ∈ W) :
    unvisited dict W ≤ unvisited dict V := by
  induction dict with
  | nil => simp [unvisited]
  | cons d dict ih =>
    rw [unvisited_cons, unvisited_cons]
    by_cases hV : d ∈ V
    · simp [hV, h d hV, ih]
    · by_cases hW : d ∈ W
      · simp only [hV, hW, if_true, if_false]; omega
      · simp only [hV, hW, if_false]; omega

theorem unvisited_lt (dict : Dictionary) (V W : List Word) (h : ∀ x ∈ V, x ∈ W)
    (x : Word) (hx : x ∈ dict) (hxV : x ∉ V) (hxW : x ∈ W) :
    unvisited dict W < unvisited dict V := by
  induction dict with
  | nil => simp at hx
  | cons d dict ih =>
    have hle := unvisited_le dict V W h
    rw [unvisited_cons, unvisited_cons]
    by_cases hd : d = x
    · subst hd
      simp only [hxW, hxV, if_true, if_false]
      omega
    · have hx2 : x ∈ dict := by
        rcases List.mem_cons.mp hx with e | e
        · exact absurd e.symm hd
        · exact e
      have := ih hx2
      by_cases hV : d ∈ V
      · simp only [hV, h d hV, if_true]; omega
      · by_cases hW : d ∈ W
        · simp only [hV, hW, if_true, if_false]; omega
        · simp only [hV, hW, if_false]; omega

/-- The potential of a state: paths in the deque plus dictionary entries not
yet visited.  It bounds the number of iterations left. -/
theorem potential_step (dict : Dictionary) (p : WordPath) (rest : List WordPath) (V : List Word)
    (w : Word) :
    (rest ++ (newWords dict w V).map p.add).length +
        unvisited dict ((newWords dict w V).reverse ++ V) ≤
      rest.length + unvisited dict V := by
  generalize hN : newWords dict w V = N
  have hsub : ∀ x ∈ N, x ∈ dict ∧ x ∉ V := by
    intro x hx
    rw [← hN] at hx
    exact ⟨(newWords_subset_dict hx).1, (newWords_subset_dict hx).2.1⟩
  have hnd : N.Nodup := hN ▸ newWords_nodup dict w V
  clear hN
  induction N generalizing V with
  | nil => simp
  | cons x N ih =>
    have h1 := ih (x :: V) (fun y hy => ⟨(hsub y (List.mem_cons_of_mem _ hy)).1, by
      intro hyV
      rcases List.mem_cons.mp hyV with e | e
      · exact (List.nodup_cons.mp hnd).1 (e ▸ hy)
      · exact (hsub y (List.mem_cons_of_mem _ hy)).2 e⟩) (List.nodup_cons.mp hnd).2
    have h2 : unvisited dict (x :: V) < unvisited dict V :=
      unvisited_lt dict V (x :: V) (fun y hy => List.mem_cons_of_mem _ hy) x
        (hsub x (List.mem_cons_self _ _)).1 (hsub x (List.mem_cons_self _ _)).2
        (List.mem_cons_self _ _)
    have h3 : unvisited dict ((x :: N).reverse ++ V) = unvisited dict (N.reverse ++ x :: V) := by
      simp
    rw [h3]
    simp only [List.length_append, List.length_map, List.length_cons] at h1 ⊢
    omega

/-! ## The invariant of the traversal -/

theorem walkN_chain {dict : Dictionary} {b : Word} :
    ∀ (t : List Word) (u : Word) (n : Nat), WalkN dict b n u → List.Chain (adjStep dict) u t →
      ∀ w, (u :: t).getLast? = some w → WalkN dict b (n + t.length) w
  | [], u, n, h, _, w, hw => by
    simp at hw
    subst hw
    simpa using h
  | v :: t, u, n, h, hc, w, hw => by
    rw [List.chain_cons] at hc
    have hw2 : (v :: t).getLast? = some w := by
      rw [List.getLast?_cons_cons] at hw
      exact hw
    have := walkN_chain t v (n + 1) (WalkN.step h hc.1) hc.2 w hw2
    simpa [Nat.add_assoc, Nat.add_comm 1] using this

theorem walkN_of_valid {dict : Dictionary} {b : Word} {p : WordPath}
    (hh : p.d_words.head? = some b) (hc : p.d_words.Chain' (adjStep dict)) {w : Word}
    (hw : p.last = some w) : WalkN dict b (p.length - 1) w := by
  unfold WordPath.last at hw
  unfold WordPath.length
  cases hp : p.d_words with
  | nil => rw [hp] at hh; simp at hh
  | cons a t =>
    rw [hp] at hh hc hw
    simp at hh
    subst hh
    have := walkN_chain t a 0 WalkN.start hc w hw
    simpa using this

theorem reachable_of_walkN {dict : Dictionary} {b w : Word} {n : Nat} (h : WalkN dict b n w) :
    Reachable dict b w := by
  induction h with
  | start => exact Relation.ReflTransGen.refl
  | step _ hs ih => exact Relation.ReflTransGen.tail ih hs

theorem walkN_of_reachable {dict : Dictionary} {b w : Word} (h : Reachable dict b w) :
    ∃ n, WalkN dict b n w := by
  induction h with
  | refl => exact ⟨0, WalkN.start⟩
  | tail _ hs ih =>
    obtain ⟨n, hn⟩ := ih
    exact ⟨n + 1, WalkN.step hn hs⟩

theorem Inv.exists_path {dict : Dictionary} {b : Word} {D Q : List WordPath} {V : List Word}
    (h : Inv dict b D Q V) {u : Word} (hu : u ∈ V) : ∃ p ∈ D ++ Q, p.last = some u := by
  have : some u ∈ V.map some := List.mem_map.mpr ⟨u, hu, rfl⟩
  have := (h.lasts.mem_iff).mpr this
  obtain ⟨p, hp, e⟩ := List.mem_map.mp this
  exact ⟨p, hp, e⟩

theorem Inv.last_mem {dict : Dictionary} {b : Word} {D Q : List WordPath} {V : List Word}
    (h : Inv dict b D Q V) {p : WordPath} (hp : p ∈ D ++ Q) {u : Word} (hu : p.last = some u) :
    u ∈ V := by
  have : some u ∈ (D ++ Q).map WordPath.last := List.mem_map.mpr ⟨p, hp, hu⟩
  have := (h.lasts.mem_iff).mp this
  obtain ⟨x, hx, e⟩ := List.mem_map.mp this
  cases e
  exact hx

/-- Every word with a walk no longer than the paths of the deque is visited. -/
theorem Inv.mem_of_walk {dict : Dictionary} {b : Word} {D Q : List WordPath} {V : List Word}
    (h : Inv dict b D Q V) {n : Nat} {x : Word} (hx : WalkN dict b n x)
    (hq : ∀ q ∈ Q, n + 1 ≤ q.length) : x ∈ V := by
  induction hx with
  | start => exact h.mem_begin
  | @step n u v hu hs ih =>
    have huV : u ∈ V := ih (fun q hq' => by have := hq q hq'; omega)
    obtain ⟨p, hp, hl⟩ := h.exists_path huV
    rcases List.mem_append.mp hp with hD | hQ
    · exact h.closed p hD u hl v hs
    · have h1 := h.shortest p hp u hl n hu
      have h2 := hq p hQ
      omega

theorem Inv.init (dict : Dictionary) (b : Word) :
    Inv dict b [] [WordPath.single b] [b] where
  valid := by
    intro p hp
    simp at hp
    subst hp
    simp [WordPath.single]
  lasts := by simp [WordPath.single, WordPath.last]
  nodup := by simp
  sorted := by simp
  window := by
    intro p hp q hq
    simp at hp hq
    subst hp hq
    omega
  shortest := by
    intro p hp w _ n _
    simp at hp
    subst hp
    simp [WordPath.single, WordPath.length]
  closed := by simp
  mem_begin := by simp

theorem Inv.preserved {dict : Dictionary} {b : Word} {D rest : List WordPath} {p : WordPath}
    {V : List Word} (h : Inv dict b D (p :: rest) V) {w : Word} (hw : p.last = some w) :
    Inv dict b (D ++ [p]) (rest ++ (newWords dict w V).map p.add)
      ((newWords dict w V).reverse ++ V) := by
  have hassoc : (D ++ [p]) ++ (rest ++ (newWords dict w V).map p.add) =
      (D ++ p :: rest) ++ (newWords dict w V).map p.add := by simp
  have hpmem : p ∈ D ++ p :: rest := by simp
  have hpvalid := h.valid p hpmem
  have hsorted := h.sorted
  rw [List.pairwise_append] at hsorted
  have hDle : ∀ a ∈ D, a.length ≤ p.length := fun a ha =>
    hsorted.2.2 a ha p (List.mem_cons_self _ _)
  have hrest_ge : ∀ a ∈ rest, p.length ≤ a.length := fun a ha =>
    (List.pairwise_cons.mp hsorted.2.1).1 a ha
  have hrest_le : ∀ a ∈ rest, a.length ≤ p.length + 1 := fun a ha =>
    h.window p (List.mem_cons_self _ _) a (List.mem_cons_of_mem _ ha)
  have hne : p.d_words ≠ [] := by
    intro e
    unfold WordPath.last at hw
    rw [e] at hw
    simp at hw
  refine ⟨?_, ?_, ?_, ?_, ?_, ?_, ?_, ?_⟩
  · -- valid
    rw [hassoc]
    intro q hq
    rcases List.mem_append.mp hq with hq | hq
    · exact h.valid q hq
    · obtain ⟨x, hx, rfl⟩ := List.mem_map.mp hq
      have hadj := (mem_newWords.mp hx).1
      refine ⟨?_, ?_⟩
      · simp only [WordPath.add]
        rw [List.head?_append_of_ne_nil _ hne]
        exact hpvalid.1
      · simp only [WordPath.add]
        apply List.Chain'.append hpvalid.2 (List.chain'_singleton x)
        intro a ha y hy
        simp at hy
        subst hy
        have : p.last = some a := ha
        rw [hw] at this
        cases this
        exact hadj
  · -- lasts
    have h1 : (WordPath.last ∘ p.add) = some := by
      funext x
      exact WordPath.last_add p x
    have e1 : ((D ++ p :: rest) ++ (newWords dict w V).map p.add).map WordPath.last =
        (D ++ p :: rest).map WordPath.last ++ (newWords dict w V).map some := by
      rw [List.map_append, List.map_map, h1]
    have e2 : ((newWords dict w V).reverse ++ V).map some =
        (newWords dict w V).reverse.map some ++ V.map some := List.map_append _ _ _
    rw [hassoc, e1, e2]
    refine (List.Perm.append h.lasts ?_).trans List.perm_append_comm
    exact ((List.reverse_perm _).map some).symm
  · -- nodup
    rw [List.nodup_append]
    refine ⟨List.nodup_reverse.mpr (newWords_nodup dict w V), h.nodup, ?_⟩
    intro x hx hxV
    exact (mem_newWords.mp (List.mem_reverse.mp hx)).2 hxV
  · -- sorted
    rw [hassoc, List.pairwise_append]
    refine ⟨h.sorted, ?_, ?_⟩
    · rw [List.pairwise_map]
      exact List.pairwise_of_forall (fun x y => by simp [WordPath.length_add])
    · intro a ha q hq
      obtain ⟨x, _, rfl⟩ := List.mem_map.mp hq
      rw [WordPath.length_add]
      rcases List.mem_append.mp ha with ha | ha
      · have := hDle a ha; omega
      · rcases List.mem_cons.mp ha with ha | ha
        · subst ha; omega
        · exact hrest_le a ha
  · -- window
    have hb : ∀ q ∈ rest ++ (newWords dict w V).map p.add,
        p.length ≤ q.length ∧ q.length ≤ p.length + 1 := by
      intro q hq
      rcases List.mem_append.mp hq with hq | hq
      · exact ⟨hrest_ge q hq, hrest_le q hq⟩
      · obtain ⟨x, _, rfl⟩ := List.mem_map.mp hq
        rw [WordPath.length_add]
        omega
    intro q hq r hr
    have := hb q hq
    have := hb r hr
    omega
  · -- shortest
    rw [hassoc]
    intro q hq u hu n hn
    rcases List.mem_append.mp hq with hq | hq
    · exact h.shortest q hq u hu n hn
    · obtain ⟨x, hx, rfl⟩ := List.mem_map.mp hq
      rw [WordPath.last_add] at hu
      have hux : x = u := Option.some.inj hu
      subst hux
      rw [WordPath.length_add]
      by_contra hlt
      have hxV : x ∈ V := h.mem_of_walk hn (by
        intro q hq
        rcases List.mem_cons.mp hq with hq | hq
        · subst hq; omega
        · have := hrest_ge q hq; omega)
      exact (mem_newWords.mp hx).2 hxV
  · -- closed
    intro q hq u hu v hv
    rw [List.mem_append]
    rcases List.mem_append.mp hq with hq | hq
    · exact Or.inr (h.closed q hq u hu v hv)
    · simp at hq
      subst hq
      rw [hw] at hu
      cases hu
      by_cases hvV : v ∈ V
      · exact Or.inr hvV
      · exact Or.inl (List.mem_reverse.mpr (mem_newWords.mpr ⟨hv, hvV⟩))
  · exact List.mem_append_right _ h.mem_begin

/-! ## The loops -/

theorem Inv.front_last {dict : Dictionary} {b : Word} {D rest : List WordPath} {p : WordPath}
    {V : List Word} (h : Inv dict b D (p :: rest) V) : ∃ w, p.last = some w ∧ 0 < p.length := by
  have hv := (h.valid p (by simp)).1
  unfold WordPath.last WordPath.length
  cases hp : p.d_words with
  | nil => rw [hp] at hv; simp at hv
  | cons a t =>
    refine ⟨(a :: t).getLast (by simp), ?_, by simp⟩
    exact List.getLast?_eq_getLast _ _

theorem Inv.visited_reachable {dict : Dictionary} {b : Word} {D Q : List WordPath}
    {V : List Word} (h : Inv dict b D Q V) {x : Word} (hx : x ∈ V) : Reachable dict b x := by
  obtain ⟨p, hp, hl⟩ := h.exists_path hx
  have hv := h.valid p hp
  exact reachable_of_walkN (walkN_of_valid hv.1 hv.2 hl)

theorem Inv.mem_iff_reachable {dict : Dictionary} {b : Word} {D : List WordPath}
    {V : List Word} (h : Inv dict b D [] V) (x : Word) : x ∈ V ↔ Reachable dict b x := by
  constructor
  · exact h.visited_reachable
  · intro hr
    obtain ⟨n, hn⟩ := walkN_of_reachable hr
    exact h.mem_of_walk hn (by simp)

theorem LongestInv.dequeue {D : List WordPath} {longest p : WordPath} (h : LongestInv D longest)
    (hp : 0 < p.length) :
    LongestInv (D ++ [p]) (if p.length > longest.length then p else longest) := by
  right
  rcases h with ⟨hD, hl⟩ | ⟨hmem, hmax⟩
  · subst hD hl
    have : p.length > WordPath.empty.length := by simpa [WordPath.empty, WordPath.length] using hp
    simp [this]
  · by_cases hgt : p.length > longest.length
    · simp only [hgt, if_true]
      refine ⟨by simp, ?_⟩
      intro q hq
      rcases List.mem_append.mp hq with hq | hq
      · have := hmax q hq; omega
      · simp at hq; subst hq; omega
    · simp only [hgt, if_false]
      refine ⟨List.mem_append_left _ hmem, ?_⟩
      intro q hq
      rcases List.mem_append.mp hq with hq | hq
      · exact hmax q hq
      · simp at hq; subst hq; omega

theorem exploreLoop_spec (dict : Dictionary) (b : Word) :
    ∀ (fuel : Nat) (s : ExploreState) (D : List WordPath),
      Inv dict b D s.toVisit s.visited → LongestInv D s.longestWordPath →
      s.toVisit.length + unvisited dict s.visited < fuel →
      ∃ s', exploreLoop dict fuel s = some s' ∧ s'.toVisit = [] ∧
        Inv dict b (D ++ exploreDequeued dict fuel s) [] s'.visited ∧
        LongestInv (D ++ exploreDequeued dict fuel s) s'.longestWordPath
  | 0, _, _, _, _, hf => by omega
  | fuel + 1, s, D, hinv, hlong, hf => by
    cases hq : s.toVisit with
    | nil =>
      refine ⟨s, ?_, hq, ?_, ?_⟩
      · simp [exploreLoop, hq]
      · simpa [exploreDequeued, hq] using hinv
      · simpa [exploreDequeued, hq] using hlong
    | cons p rest =>
      rw [hq] at hinv hf
      obtain ⟨w, hw, hpos⟩ := hinv.front_last
      have hiter := exploreIter_cons dict s p rest w hq hw
      have hpot := potential_step dict p rest s.visited w
      simp only [List.length_cons] at hf
      obtain ⟨s', h1, h2, h3, h4⟩ := exploreLoop_spec dict b fuel
        ⟨rest ++ (newWords dict w s.visited).map p.add,
          (newWords dict w s.visited).reverse ++ s.visited,
          if p.length > s.longestWordPath.length then p else s.longestWordPath⟩ (D ++ [p])
        (hinv.preserved hw) (hlong.dequeue hpos) (by simp only []; omega)
      refine ⟨s', ?_, h2, ?_, ?_⟩
      · simp [exploreLoop, hq, hiter, h1]
      · simpa [exploreDequeued, hq, hiter] using h3
      · simpa [exploreDequeued, hq, hiter] using h4

theorem exploreLoop_mono (dict : Dictionary) :
    ∀ (n : Nat) (s r : ExploreState), exploreLoop dict n s = some r →
      ∀ m, n ≤ m → exploreLoop dict m s = some r ∧
        exploreDequeued dict m s = exploreDequeued dict n s
  | 0, _, _, h, _, _ => by simp [exploreLoop] at h
  | n + 1, s, r, h, m, hm => by
    obtain ⟨k, rfl⟩ : ∃ k, m = k + 1 := ⟨m - 1, by omega⟩
    cases hq : s.toVisit with
    | nil =>
      simp [exploreLoop, hq] at h ⊢
      subst h
      simp [exploreDequeued, hq]
    | cons p rest =>
      simp only [exploreLoop, hq, List.isEmpty_cons, Bool.false_eq_true, if_false] at h ⊢
      cases hi : exploreIter dict s with
      | none => rw [hi] at h; simp at h
      | some s1 =>
        rw [hi] at h
        simp only [Option.some_bind] at h ⊢
        have := exploreLoop_mono dict n s1 r h k (by omega)
        refine ⟨this.1, ?_⟩
        simp [exploreDequeued, hq, hi, this.2]

theorem findWordLadderLoop_spec (dict : Dictionary) (b e : Word) :
    ∀ (fuel : Nat) (s : LadderState) (D : List WordPath),
      Inv dict b D s.toVisit s.visited → (∀ p ∈ D, p.last ≠ some e) →
      s.toVisit.length + unvisited dict s.visited < fuel →
      (∃ p D' Q' V', findWordLadderLoop dict e fuel s = some (LadderOutcome.found p) ∧
          p.last = some e ∧ Inv dict b D' (p :: Q') V') ∨
      (findWordLadderLoop dict e fuel s = some LadderOutcome.notFound ∧
          ∃ D' V', Inv dict b D' [] V' ∧ ∀ p ∈ D', p.last ≠ some e)
  | 0, _, _, _, _, hf => by omega
  | fuel + 1, s, D, hinv, hD, hf => by
    cases hq : s.toVisit with
    | nil =>
      right
      refine ⟨by simp [findWordLadderLoop, hq], D, s.visited, ?_, hD⟩
      rw [hq] at hinv
      exact hinv
    | cons p rest =>
      rw [hq] at hinv hf
      obtain ⟨w, hw, _⟩ := hinv.front_last
      by_cases hwe : w = e
      · left
        subst hwe
        refine ⟨p, D, rest, s.visited, ?_, hw, hinv⟩
        simp [findWordLadderLoop, hq, ladderIter_found dict w s p rest hq hw]
      · have hiter := ladderIter_next dict e s p rest w hq hw hwe
        have hpot := potential_step dict p rest s.visited w
        simp only [List.length_cons] at hf
        have hD' : ∀ q ∈ D ++ [p], q.last ≠ some e := by
          intro q hq'
          rcases List.mem_append.mp hq' with hq' | hq'
          · exact hD q hq'
          · simp at hq'
            subst hq'
            rw [hw]
            intro h
            exact hwe (Option.some.inj h)
        have := findWordLadderLoop_spec dict b e fuel
          ⟨rest ++ (newWords dict w s.visited).map p.add,
            (newWords dict w s.visited).reverse ++ s.visited⟩ (D ++ [p])
          (hinv.preserved hw) hD' (by simp only []; omega)
        simpa [findWordLadderLoop, hq, hiter] using this

theorem findWordLadderLoop_mono (dict : Dictionary) (e : Word) :
    ∀ (n : Nat) (s : LadderState) (r : LadderOutcome), findWordLadderLoop dict e n s = some r →
      ∀ m, n ≤ m → findWordLadderLoop dict e m s = some r
  | 0, _, _, h, _, _ => by simp [findWordLadderLoop] at h
  | n + 1, s, r, h, m, hm => by
    obtain ⟨k, rfl⟩ : ∃ k, m = k + 1 := ⟨m - 1, by omega⟩
    cases hq : s.toVisit with
    | nil =>
      simp [findWordLadderLoop, hq] at h ⊢
      exact h
    | cons p rest =>
      simp only [findWordLadderLoop, hq, List.isEmpty_cons, Bool.false_eq_true, if_false] at h ⊢
      cases hi : ladderIter dict e s with
      | none => rw [hi] at h; simp at h
      | some x =>
        rw [hi] at h
        cases x with
        | inl c => exact h
        | inr s1 => exact findWordLadderLoop_mono dict e n s1 r h k (by omega)

theorem init_potential (dict : Dictionary) (b : Word) :
    [WordPath.single b].length + unvisited dict [b] < dict.length + 2 := by
  have : unvisited dict [b] ≤ dict.length := by
    unfold unvisited
    exact List.length_filter_le _ _
  simp only [List.length_singleton]
  omega

theorem exploreInit_eq (b : Word) : exploreInit b = ⟨[WordPath.single b], [b], WordPath.empty⟩ := by
  simp [exploreInit]

theorem ladderInit_eq (b : Word) : ladderInit b = ⟨[WordPath.single b], [b]⟩ := by
  simp [ladderInit]

theorem exploreRun_spec (dict : Dictionary) (b : Word) :
    ∃ s, exploreRun dict b = some s ∧ s.toVisit = [] ∧
      Inv dict b (exploreDequeued dict (dict.length + 2) (exploreInit b)) [] s.visited ∧
      LongestInv (exploreDequeued dict (dict.length + 2) (exploreInit b)) s.longestWordPath := by
  have := exploreLoop_spec dict b (dict.length + 2) (exploreInit b) []
    (by rw [exploreInit_eq]; exact Inv.init dict b)
    (by rw [exploreInit_eq]; exact Or.inl ⟨rfl, rfl⟩)
    (by rw [exploreInit_eq]; exact init_potential dict b)
  simpa [exploreRun] using this

theorem findWordLadderOutcome_spec (dict : Dictionary) (b e : Word) :
    (∃ p D' Q' V', findWordLadderOutcome dict b e = some (LadderOutcome.found p) ∧
        p.last = some e ∧ Inv dict b D' (p :: Q') V') ∨
    (findWordLadderOutcome dict b e = some LadderOutcome.notFound ∧
        ∃ D' V', Inv dict b D' [] V' ∧ ∀ p ∈ D', p.last ≠ some e) := by
  have := findWordLadderLoop_spec dict b e (dict.length + 2) (ladderInit b) []
    (by rw [ladderInit_eq]; exact Inv.init dict b)
    (by simp)
    (by rw [ladderInit_eq]; exact init_potential dict b)
  simpa [findWordLadderOutcome] using this

/-! ## Ladders and walks -/

theorem chain_adjStep_of_ladder {dict : Dictionary} (hU : upperDict dict) :
    ∀ (t : List Word) (u : Word), List.Chain differInOne u t → (∀ x ∈ t, x ∈ dict) →
      List.Chain (adjStep dict) u t
  | [], _, _, _ => List.Chain.nil
  | v :: t, u, hc, hd => by
    rw [List.chain_cons] at hc ⊢
    exact ⟨(adjStep_iff_of_upper hU u v).mpr ⟨hd v (List.mem_cons_self _ _), hc.1⟩,
      chain_adjStep_of_ladder hU t v hc.2 (fun x hx => hd x (List.mem_cons_of_mem _ hx))⟩

theorem ladder_of_chain_adjStep {dict : Dictionary} :
    ∀ (t : List Word) (u : Word), List.Chain (adjStep dict) u t →
      List.Chain differInOne u t ∧ ∀ x ∈ t, x ∈ dict
  | [], _, _ => ⟨List.Chain.nil, by simp⟩
  | v :: t, u, hc => by
    rw [List.chain_cons] at hc
    have ih := ladder_of_chain_adjStep t v hc.2
    refine ⟨List.chain_cons.mpr ⟨adjStep_differInOne hc.1, ih.1⟩, ?_⟩
    intro x hx
    rcases List.mem_cons.mp hx with e | e
    · subst e; exact adjStep_mem_dict hc.1
    · exact ih.2 x e

theorem walkN_of_ladder {dict : Dictionary} (hU : upperDict dict) {b e : Word} {l : List Word}
    (h : IsLadder dict b e l) : WalkN dict b (l.length - 1) e := by
  obtain ⟨hd, hc, hh, hl⟩ := h
  cases l with
  | nil => simp at hh
  | cons a t =>
    simp at hh
    subst hh
    have hc' := chain_adjStep_of_ladder hU t a hc (fun x hx => hd x (List.mem_cons_of_mem _ hx))
    have := walkN_chain t a 0 WalkN.start hc' e hl
    simpa using this

theorem isLadder_of_valid {dict : Dictionary} {b e : Word} (hb : b ∈ dict) {p : WordPath}
    (hh : p.d_words.head? = some b) (hc : p.d_words.Chain' (adjStep dict))
    (hl : p.last = some e) : IsLadder dict b e p.d_words := by
  unfold WordPath.last at hl
  cases hp : p.d_words with
  | nil => rw [hp] at hh; simp at hh
  | cons a t =>
    rw [hp] at hh hc hl
    simp at hh
    subst hh
    have := ladder_of_chain_adjStep t a hc
    refine ⟨?_, this.1, rfl, hl⟩
    intro x hx
    rcases List.mem_cons.mp hx with e | e
    · subst e; exact hb
    · exact this.2 x e

/-! ## The text of a path -/

theorem data_head_append (s t : String) (c : Char) (h : s.data.head? = some c) :
    (s ++ t).data.head? = some c := by
  rw [String.data_append]
  cases hs : s.data with
  | nil => rw [hs] at h; simp at h
  | cons a l => rw [hs] at h; simpa using h

theorem print_loop_head (f : String → Nat → String) (c : Char)
    (hf : ∀ o i, o.data.head? = some c → (f o i).data.head? = some c) :
    ∀ (l : List Nat) (o : String), o.data.head? = some c → (l.foldl f o).data.head? = some c
  | [], _, h => h
  | i :: l, o, h => print_loop_head f c hf l (f o i) (hf o i h)

theorem print_head (p : WordPath) : (p.print "").data.head? = some '[' := by
  unfold WordPath.print
  apply data_head_append
  apply print_loop_head
  · intro o i h
    simp only
    split
    · exact data_head_append _ _ _ (data_head_append _ _ _ h)
    · exact data_head_append _ _ _ h
  · rfl

theorem print_ne_notFound (p : WordPath) : p.print "" ++ "\n" ≠ "No word ladder found.\n" := by
  intro h
  have h1 := data_head_append _ "\n" _ (print_head p)
  rw [h] at h1
  revert h1
  decide

theorem findWordLadder_of_found {dict : Dictionary} {b e : Word} {p : WordPath}
    (h : findWordLadderOutcome dict b e = some (LadderOutcome.found p)) :
    findWordLadder dict b e = some (p.print "" ++ "\n") := by
  simp [findWordLadder, h]

theorem findWordLadder_of_notFound {dict : Dictionary} {b e : Word}
    (h : findWordLadderOutcome dict b e = some LadderOutcome.notFound) :
    findWordLadder dict b e = some "No word ladder found.\n" := by
  simp [findWordLadder, h]

/-! ## The shortest ladder -/

/-- C1: on a dictionary of upper-case words with the begin word in it, a path
that `findWordLadder` outputs is a ladder from the begin word to the end
word (it starts with the one, ends with the other), and no ladder of
dictionary words from the begin word to the end word has fewer words. -/
theorem findWordLadder_shortest (dict : Dictionary) (b e : Word) (hU : upperDict dict)
    (hb : b ∈ dict) (p : WordPath)
    (hf : findWordLadderOutcome dict b e = some (LadderOutcome.found p)) :
    findWordLadder dict b e = some (p.print "" ++ "\n") ∧
    p.d_words.head? = some b ∧ p.d_words.getLast? = some e ∧
    IsLadder dict b e p.d_words ∧
    ∀ l, IsLadder dict b e l → p.length ≤ l.length := by
  rcases findWordLadderOutcome_spec dict b e with ⟨q, D, Q, V, h1, h2, h3⟩ | ⟨h1, _⟩
  · rw [hf] at h1
    cases h1
    have hv := h3.valid p (by simp)
    refine ⟨findWordLadder_of_found hf, hv.1, h2, isLadder_of_valid hb hv.1 hv.2 h2, ?_⟩
    intro l hl
    have hw := walkN_of_ladder hU hl
    have := h3.shortest p (by simp) e h2 _ hw
    have hne : l ≠ [] := by
      intro e'
      have := hl.2.2.1
      rw [e'] at this
      simp at this
    have : 0 < l.length := List.length_pos.mpr hne
    omega
  · rw [hf] at h1
    cases h1

/-- A use of C1 on scenario A of the specification. -/
theorem findWordLadder_shortest_witness :
    findWordLadder
        [['C', 'A', 'T'], ['C', 'O', 'T'], ['C', 'O', 'G'], ['D', 'O', 'G'], ['C', 'O', 'W']]
        ['C', 'A', 'T'] ['D', 'O', 'G'] = some "[ CAT -> COT -> COG -> DOG ]\n" ∧
    ∀ l, IsLadder
        [['C', 'A', 'T'], ['C', 'O', 'T'], ['C', 'O', 'G'], ['D', 'O', 'G'], ['C', 'O', 'W']]
        ['C', 'A', 'T'] ['D', 'O', 'G'] l → 4 ≤ l.length := by
  have h := findWordLadder_shortest
    [['C', 'A', 'T'], ['C', 'O', 'T'], ['C', 'O', 'G'], ['D', 'O', 'G'], ['C', 'O', 'W']]
    ['C', 'A', 'T'] ['D', 'O', 'G'] (by decide) (by decide)
    ⟨[['C', 'A', 'T'], ['C', 'O', 'T'], ['C', 'O', 'G'], ['D', 'O', 'G']]⟩ (by decide)
  exact ⟨by decide, h.2.2.2.2⟩

/-- C2: on a dictionary of upper-case words with the begin word in it,
`findWordLadder` reports "No word ladder found." exactly when there is no
ladder of dictionary words from the begin word to the end word, and outputs
a path whenever there is one. -/
theorem findWordLadder_complete (dict : Dictionary) (b e : Word) (hU : upperDict dict)
    (hb : b ∈ dict) :
    (findWordLadder dict b e = some "No word ladder found.\n" ↔
      ¬ ∃ l, IsLadder dict b e l) ∧
    ((∃ l, IsLadder dict b e l) →
      ∃ p, findWordLadderOutcome dict b e = some (LadderOutcome.found p) ∧
        findWordLadder dict b e = some (p.print "" ++ "\n")) := by
  rcases findWordLadderOutcome_spec dict b e with ⟨p, D, Q, V, h1, h2, h3⟩ | ⟨h1, D, V, h2, h3⟩
  · have hv := h3.valid p (by simp)
    have hlad : ∃ l, IsLadder dict b e l := ⟨_, isLadder_of_valid hb hv.1 hv.2 h2⟩
    refine ⟨⟨?_, fun hn => absurd hlad hn⟩, fun _ => ⟨p, h1, findWordLadder_of_found h1⟩⟩
    intro h
    rw [findWordLadder_of_found h1] at h
    exact absurd (Option.some.inj h) (print_ne_notFound p)
  · have hno : ¬ ∃ l, IsLadder dict b e l := by
      rintro ⟨l, hl⟩
      have hw := walkN_of_ladder hU hl
      have he : e ∈ V := h2.mem_of_walk hw (by simp)
      obtain ⟨q, hq, hql⟩ := h2.exists_path he
      simp only [List.append_nil] at hq
      exact h3 q hq hql
    exact ⟨⟨fun _ => hno, fun _ => findWordLadder_of_notFound h1⟩, fun h => absurd h hno⟩

/-- A use of C2 on scenario B of the specification. -/
theorem findWordLadder_complete_witness :
    findWordLadder [['C', 'A', 'T'], ['D', 'O', 'G']] ['C', 'A', 'T'] ['D', 'O', 'G'] =
      some "No word ladder found.\n" ∧
    ¬ ∃ l, IsLadder [['C', 'A', 'T'], ['D', 'O', 'G']] ['C', 'A', 'T'] ['D', 'O', 'G'] l := by
  have h := findWordLadder_complete [['C', 'A', 'T'], ['D', 'O', 'G']] ['C', 'A', 'T']
    ['D', 'O', 'G'] (by decide) (by decide)
  have h0 : findWordLadder [['C', 'A', 'T'], ['D', 'O', 'G']] ['C', 'A', 'T'] ['D', 'O', 'G'] =
      some "No word ladder found.\n" := by decide
  exact ⟨h0, h.1.mp h0⟩

/-! ## The exploration of a component -/

theorem ncard_of_nodup {α : Type} [DecidableEq α] (V : List α) (S : Set α) (hnd : V.Nodup)
    (h : ∀ x, x ∈ V ↔ x ∈ S) : V.length = S.ncard := by
  have hS : S = ↑V.toFinset := by
    ext x
    simp [h x]
  rw [hS, Set.ncard_coe_Finset, List.toFinset_card_of_nodup hnd]

theorem countP_eq_of_nodup (V : List Word) (hnd : V.Nodup) (w : Word) :
    V.countP (fun v => decide (some v = some w)) = if w ∈ V then 1 else 0 := by
  induction V with
  | nil => simp
  | cons a V ih =>
    have hnd' := List.nodup_cons.mp hnd
    rw [List.countP_cons, ih hnd'.2]
    by_cases h : a = w
    · subst h
      simp [hnd'.1]
    · have : ¬ w = a := fun e => h e.symm
      simp [h, this]

theorem count_last_eq {dict : Dictionary} {b : Word} {D : List WordPath} {V : List Word}
    (h : Inv dict b D [] V) (w : Word) :
    (D.filter fun p => decide (p.last = some w)).length = if w ∈ V then 1 else 0 := by
  have hp := h.lasts
  simp only [List.append_nil] at hp
  rw [← List.countP_eq_length_filter]
  have e1 : D.countP (fun p => decide (p.last = some w)) =
      (D.map WordPath.last).countP (fun x => decide (x = some w)) := by
    rw [List.countP_map]
    rfl
  have e2 : (V.map some).countP (fun x => decide (x = some w)) =
      V.countP (fun v => decide (some v = some w)) := by
    rw [List.countP_map]
    rfl
  rw [e1, hp.countP_eq, e2, countP_eq_of_nodup V h.nodup w]

/-- C3: in `explore`, every word reachable from the start word by a chain of
`getAdjacentWords` steps is the final word of exactly one dequeued path, no
unreachable word is the final word of a dequeued path, and the size of the
visited set at completion is the number of reachable words, the start word
included. -/
theorem explore_visits_each_once (dict : Dictionary) (b : Word) :
    ∃ s, exploreRun dict b = some s ∧ s.toVisit = [] ∧
      (∀ w, Reachable dict b w →
        ((exploreDequeued dict (dict.length + 2) (exploreInit b)).filter
          fun p => decide (p.last = some w)).length = 1) ∧
      (∀ w, ¬ Reachable dict b w →
        ∀ p ∈ exploreDequeued dict (dict.length + 2) (exploreInit b), p.last ≠ some w) ∧
      s.visited.Nodup ∧ (∀ w, w ∈ s.visited ↔ Reachable dict b w) ∧
      s.visited.length = Set.ncard {w | Reachable dict b w} := by
  obtain ⟨s, h1, h2, h3, _⟩ := exploreRun_spec dict b
  refine ⟨s, h1, h2, ?_, ?_, h3.nodup, h3.mem_iff_reachable, ?_⟩
  · intro w hw
    rw [count_last_eq h3 w]
    simp [(h3.mem_iff_reachable w).mpr hw]
  · intro w hw p hp hl
    exact hw (h3.visited_reachable (h3.last_mem (by simpa using hp) hl))
  · exact ncard_of_nodup s.visited _ h3.nodup h3.mem_iff_reachable

/-- What `explore` writes: the size of the visited set and the longest path
of the state in which its loop ends. -/
theorem explore_text {dict : Dictionary} {b : Word} {s : ExploreState}
    (h : exploreRun dict b = some s) :
    explore dict b =
      some ("Connected component of " ++ String.mk b
        ++ " has " ++ toString s.visited.length ++ " elements.\n"
        ++ "A longest path starting from "
        ++ String.mk b ++ ": " ++ s.longestWordPath.print "" ++ " is of length "
        ++ toString s.longestWordPath.length ++ "\n") := by
  simp [explore, h]

theorem reachable_iff_connected {dict : Dictionary} (hU : upperDict dict) {b : Word}
    (hb : b ∈ dict) (w : Word) : Reachable dict b w ↔ w ∈ dict ∧ Connected dict b w := by
  constructor
  · intro h
    induction h with
    | refl => exact ⟨hb, Relation.ReflTransGen.refl⟩
    | tail _ hs ih =>
      have hd := adjStep_mem_dict hs
      exact ⟨hd, Relation.ReflTransGen.tail ih.2 ⟨ih.1, hd, adjStep_differInOne hs⟩⟩
  · rintro ⟨-, h⟩
    induction h with
    | refl => exact Relation.ReflTransGen.refl
    | tail _ hs ih =>
      exact Relation.ReflTransGen.tail ih ((adjStep_iff_of_upper hU _ _).mpr ⟨hs.2.1, hs.2.2⟩)

theorem hamming_comm (u v : Word) : hamming u v = hamming v u := by
  induction u generalizing v with
  | nil => cases v <;> simp [hamming]
  | cons a u ih =>
    cases v with
    | nil => simp [hamming]
    | cons c v =>
      rw [hamming_cons, hamming_cons, ih v]
      by_cases h : a = c
      · simp [h]
      · have : ¬ c = a := fun e => h e.symm
        simp [h, this]

theorem ladderEdge_symm {dict : Dictionary} {u v : Word} (h : ladderEdge dict u v) :
    ladderEdge dict v u :=
  ⟨h.2.1, h.1, h.2.2.1.symm, by rw [hamming_comm]; exact h.2.2.2⟩

theorem connected_symm {dict : Dictionary} {u v : Word} (h : Connected dict u v) :
    Connected dict v u := by
  induction h with
  | refl => exact Relation.ReflTransGen.refl
  | tail _ hs ih => exact Relation.ReflTransGen.head (ladderEdge_symm hs) ih

/-- C4: on a dictionary of upper-case words with the start word in it, the
element count that `explore` reports (the number in the text that it writes)
is the number of dictionary words in the connected component of the start
word in the undirected graph that joins two dictionary words of equal length
when they differ in exactly one position. -/
theorem explore_count_eq_component (dict : Dictionary) (b : Word) (hU : upperDict dict)
    (hb : b ∈ dict) :
    ∃ s, exploreRun dict b = some s ∧
      explore dict b =
        some ("Connected component of " ++ String.mk b
          ++ " has " ++ toString s.visited.length ++ " elements.\n"
          ++ "A longest path starting from "
          ++ String.mk b ++ ": " ++ s.longestWordPath.print "" ++ " is of length "
          ++ toString s.longestWordPath.length ++ "\n") ∧
      (∀ w, w ∈ s.visited ↔ w ∈ dict ∧ Connected dict b w) ∧
      (∀ u v, Connected dict u v → Connected dict v u) ∧
      s.visited.length = Set.ncard {w | w ∈ dict ∧ Connected dict b w} := by
  obtain ⟨s, h1, _, h3, _⟩ := exploreRun_spec dict b
  have hm : ∀ w, w ∈ s.visited ↔ w ∈ dict ∧ Connected dict b w := fun w =>
    (h3.mem_iff_reachable w).trans (reachable_iff_connected hU hb w)
  exact ⟨s, h1, explore_text h1, hm, fun u v h => connected_symm h,
    ncard_of_nodup s.visited _ h3.nodup hm⟩

/-- A use of C4 on scenario D of the specification. -/
theorem explore_count_eq_component_witness :
    Set.ncard {w | w ∈ [['C', 'A', 'T'], ['C', 'O', 'T'], ['C', 'O', 'G'], ['C', 'A', 'G']] ∧
      Connected [['C', 'A', 'T'], ['C', 'O', 'T'], ['C', 'O', 'G'], ['C', 'A', 'G']]
        ['C', 'A', 'T'] w} = 4 := by
  obtain ⟨s, h1, _, _, _, h2⟩ := explore_count_eq_component
    [['C', 'A', 'T'], ['C', 'O', 'T'], ['C', 'O', 'G'], ['C', 'A', 'G']] ['C', 'A', 'T']
    (by decide) (by decide)
  have h0 : (exploreRun [['C', 'A', 'T'], ['C', 'O', 'T'], ['C', 'O', 'G'], ['C', 'A', 'G']]
      ['C', 'A', 'T']).map (fun s => s.visited.length) = some 4 := by decide
  rw [h1] at h0
  rw [← h2]
  exact Option.some.inj h0

theorem exploreDequeued_init_ne_nil (dict : Dictionary) (b : Word) :
    exploreDequeued dict (dict.length + 2) (exploreInit b) ≠ [] := by
  rw [exploreInit_eq]
  simp only [exploreDequeued]
  split <;> simp

/-- In the graph of `getAdjacentWords` steps, for every dictionary: the
longest path with which the loop of `explore` ends is a shortest walk from
the start word to its own last word, and no reachable word is farther from
the start word. -/
theorem explore_longest_is_eccentricity (dict : Dictionary) (b : Word) :
    ∃ s, exploreRun dict b = some s ∧
      ∃ w n, s.longestWordPath.last = some w ∧
        s.longestWordPath.d_words.head? = some b ∧
        s.longestWordPath.d_words.Chain' (adjStep dict) ∧
        s.longestWordPath.length = n + 1 ∧
        IsDist dict b w n ∧
        (∀ v m, Reachable dict b v → IsDist dict b v m → m ≤ n) ∧
        IsEccentricity dict b n := by
  obtain ⟨s, h1, _, h3, h4⟩ := exploreRun_spec dict b
  rcases h4 with ⟨hD, _⟩ | ⟨hmem, hmax⟩
  · exact absurd hD (exploreDequeued_init_ne_nil dict b)
  · have hmem' : s.longestWordPath ∈
        exploreDequeued dict (dict.length + 2) (exploreInit b) ++ [] := by simpa using hmem
    have hv := h3.valid _ hmem'
    have hne : s.longestWordPath.d_words ≠ [] := by
      intro e
      have := hv.1
      rw [e] at this
      simp at this
    have hpos : 0 < s.longestWordPath.length := List.length_pos.mpr hne
    have hlast : s.longestWordPath.last = some (s.longestWordPath.d_words.getLast hne) :=
      List.getLast?_eq_getLast _ _
    have hdist : IsDist dict b (s.longestWordPath.d_words.getLast hne)
        (s.longestWordPath.length - 1) := by
      refine ⟨walkN_of_valid hv.1 hv.2 hlast, ?_⟩
      intro m hm
      have := h3.shortest _ hmem' _ hlast m hm
      omega
    have hfar : ∀ v m, IsDist dict b v m → m ≤ s.longestWordPath.length - 1 := by
      intro v m hvm
      have hvV : v ∈ s.visited := (h3.mem_iff_reachable v).mpr (reachable_of_walkN hvm.1)
      obtain ⟨q, hq, hql⟩ := h3.exists_path hvV
      have hqv := h3.valid q hq
      have h5 := hvm.2 _ (walkN_of_valid hqv.1 hqv.2 hql)
      have h6 := hmax q (by simpa using hq)
      omega
    exact ⟨s, h1, _, s.longestWordPath.length - 1, hlast, hv.1, hv.2, by omega, hdist,
      fun v m _ h => hfar v m h, ⟨_, hdist⟩, hfar⟩

/-! ## Termination -/

theorem measure_step (dict : Dictionary) (p : WordPath) (rest : List WordPath) (V : List Word)
    (w : Word) :
    Prod.Lex (· < ·) (· < ·)
      (unvisited dict ((newWords dict w V).reverse ++ V),
        (rest ++ (newWords dict w V).map p.add).length)
      (unvisited dict V, (p :: rest).length) := by
  cases hN : newWords dict w V with
  | nil =>
    simp only [List.reverse_nil, List.nil_append, List.map_nil, List.append_nil,
      List.length_cons]
    exact Prod.Lex.right _ (Nat.lt_succ_self _)
  | cons x N =>
    apply Prod.Lex.left
    have hx : x ∈ newWords dict w V := by rw [hN]; exact List.mem_cons_self _ _
    have h := newWords_subset_dict hx
    exact unvisited_lt dict V _ (fun y hy => List.mem_append_right _ hy) x h.1 h.2.1
      (List.mem_append_left _ (List.mem_reverse.mpr (List.mem_cons_self _ _)))

theorem exploreIter_measure (dict : Dictionary) (s s' : ExploreState)
    (h : exploreIter dict s = some s') :
    Prod.Lex (· < ·) (· < ·) (unvisited dict s'.visited, s'.toVisit.length)
      (unvisited dict s.visited, s.toVisit.length) := by
  cases hq : s.toVisit with
  | nil => simp [exploreIter, hq] at h
  | cons p rest =>
    cases hl : p.last with
    | none => simp [exploreIter, hq, hl] at h
    | some w =>
      rw [exploreIter_cons dict s p rest w hq hl] at h
      cases h
      exact measure_step dict p rest s.visited w

theorem ladderIter_measure (dict : Dictionary) (e : Word) (s s' : LadderState)
    (h : ladderIter dict e s = some (Sum.inr s')) :
    Prod.Lex (· < ·) (· < ·) (unvisited dict s'.visited, s'.toVisit.length)
      (unvisited dict s.visited, s.toVisit.length) := by
  cases hq : s.toVisit with
  | nil => simp [ladderIter, hq] at h
  | cons p rest =>
    cases hl : p.last with
    | none => simp [ladderIter, hq, hl] at h
    | some w =>
      by_cases hwe : w = e
      · subst hwe
        rw [ladderIter_found dict w s p rest hq hl] at h
        cases h
      · rw [ladderIter_next dict e s p rest w hq hl hwe] at h
        cases h
        exact measure_step dict p rest s.visited w

/-- C9: the loops of `explore` and `findWordLadder` terminate.  At every
iteration the pair (dictionary entries not yet visited, paths in the deque)
decreases in the lexicographic order; `explore` leaves its loop with an empty
deque and `findWordLadder` leaves its loop with a result, both within
`dict.length + 2` iterations, and more fuel does not change the result. -/
theorem traversal_terminates (dict : Dictionary) :
    (∀ s s', exploreIter dict s = some s' →
      Prod.Lex (· < ·) (· < ·) (unvisited dict s'.visited, s'.toVisit.length)
        (unvisited dict s.visited, s.toVisit.length)) ∧
    (∀ e s s', ladderIter dict e s = some (Sum.inr s') →
      Prod.Lex (· < ·) (· < ·) (unvisited dict s'.visited, s'.toVisit.length)
        (unvisited dict s.visited, s.toVisit.length)) ∧
    (∀ b, ∃ s, exploreRun dict b = some s ∧ s.toVisit = [] ∧
      ∀ fuel, dict.length + 2 ≤ fuel → exploreLoop dict fuel (exploreInit b) = some s) ∧
    (∀ b e, ∃ r, findWordLadderOutcome dict b e = some r ∧
      ∀ fuel, dict.length + 2 ≤ fuel →
        findWordLadderLoop dict e fuel (ladderInit b) = some r) := by
  refine ⟨exploreIter_measure dict, ladderIter_measure dict, ?_, ?_⟩
  · intro b
    obtain ⟨s, h1, h2, _⟩ := exploreRun_spec dict b
    exact ⟨s, h1, h2, fun fuel hf => (exploreLoop_mono dict _ _ s h1 fuel hf).1⟩
  · intro b e
    rcases findWordLadderOutcome_spec dict b e with ⟨p, _, _, _, h1, _⟩ | ⟨h1, _⟩
    · exact ⟨_, h1, fun fuel hf => findWordLadderLoop_mono dict e _ _ _ h1 fuel hf⟩
    · exact ⟨_, h1, fun fuel hf => findWordLadderLoop_mono dict e _ _ _ h1 fuel hf⟩

/-! ## The command line of ladder mode -/

theorem mem_foldl_insert (lines : List Word) (d : Dictionary) (w : Word) :
    w ∈ lines.foldl (fun d word => d.insert word) d ↔ w ∈ lines ∨ w ∈ d := by
  induction lines generalizing d with
  | nil => simp
  | cons a lines ih =>
    rw [List.foldl_cons, ih, List.mem_insert_iff, List.mem_cons]
    constructor
    · rintro (h | h | h)
      · exact Or.inl (Or.inr h)
      · exact Or.inl (Or.inl h)
      · exact Or.inr h
    · rintro ((h | h) | h)
      · exact Or.inr (Or.inl h)
      · exact Or.inl h
      · exact Or.inr (Or.inr h)

theorem mem_loadDictionary (lines : List Word) (w : Word) :
    w ∈ (loadDictionary [] (some lines)).2.1 ↔ w ∈ lines := by
  simp [loadDictionary, mem_foldl_insert]

/-- C10, against the claim as stated: the begin word `CAT` and the end word
`DOGS` have different lengths, the dictionary file is readable, and `ladder`
returns 3, not 4, because `DOGS` is not in the dictionary. -/
theorem ladder_length_mismatch_returns_3 :
    (toUpper ['c', 'a', 't']).length ≠ (toUpper ['d', 'o', 'g', 's']).length ∧
    (ladder (fun _ => some [['C', 'A', 'T']]) 4
      [['w'], ['d'], ['c', 'a', 't'], ['d', 'o', 'g', 's']]).map (fun r => r.exitCode) =
      some 3 := by
  decide

/-- C10, amended: in ladder mode with a readable dictionary, for a begin word
and an end word that, after upper-casing, are both in the dictionary and have
different lengths, `ladder` returns 4, and `findWordLadder` is not run: the
run is the same whatever stands in the place of the search. -/
theorem ladder_length_mismatch (files : Word → Option (List Word)) (argv : List Word)
    (lines : List Word) (hfile : files (argv.getD 1 []) = some lines)
    (hb : toUpper (argv.getD 2 []) ∈ lines) (he : toUpper (argv.getD 3 []) ∈ lines)
    (hlen : (toUpper (argv.getD 2 [])).length ≠ (toUpper (argv.getD 3 [])).length) :
    ladder files 4 argv = some ⟨4, "Word lengths must equal.\n", ""⟩ ∧
    ∀ search, ladderWith search files 4 argv = some ⟨4, "Word lengths must equal.\n", ""⟩ := by
  have key : ∀ search,
      ladderWith search files 4 argv = some ⟨4, "Word lengths must equal.\n", ""⟩ := by
    intro search
    have hb' := (mem_loadDictionary lines _).mpr hb
    have he' := (mem_loadDictionary lines _).mpr he
    simp only [loadDictionary, List.getD_eq_getElem?_getD] at hb' he' hfile hlen
    simp [ladderWith, hfile, hb', he', hlen, loadDictionary]
  exact ⟨key findWordLadder, key⟩

/-- A use of the amended C10: both words are in the dictionary. -/
theorem ladder_length_mismatch_witness :
    ladder (fun _ => some [['C', 'A', 'T'], ['D', 'O', 'G', 'S']]) 4
      [['w'], ['d'], ['c', 'a', 't'], ['d', 'o', 'g', 's']] =
      some ⟨4, "Word lengths must equal.\n", ""⟩ :=
  (ladder_length_mismatch (fun _ => some [['C', 'A', 'T'], ['D', 'O', 'G', 'S']])
    [['w'], ['d'], ['c', 'a', 't'], ['d', 'o', 'g', 's']]
    [['C', 'A', 'T'], ['D', 'O', 'G', 'S']] rfl (by decide) (by decide) (by decide)).1

/-! ## The invariant at every iteration -/

theorem exploreIter_some {dict : Dictionary} {s s' : ExploreState}
    (h : exploreIter dict s = some s') :
    ∃ p rest w, s.toVisit = p :: rest ∧ p.last = some w ∧
      s' = ⟨rest ++ (newWords dict w s.visited).map p.add,
        (newWords dict w s.visited).reverse ++ s.visited,
        if p.length > s.longestWordPath.length then p else s.longestWordPath⟩ := by
  cases hq : s.toVisit with
  | nil => simp [exploreIter, hq] at h
  | cons p rest =>
    cases hl : p.last with
    | none => simp [exploreIter, hq, hl] at h
    | some w =>
      rw [exploreIter_cons dict s p rest w hq hl] at h
      exact ⟨p, rest, w, rfl, hl, (Option.some.inj h).symm⟩

theorem ladderIter_inr {dict : Dictionary} {e : Word} {s s' : LadderState}
    (h : ladderIter dict e s = some (Sum.inr s')) :
    ∃ p rest w, s.toVisit = p :: rest ∧ p.last = some w ∧ w ≠ e ∧
      s' = ⟨rest ++ (newWords dict w s.visited).map p.add,
        (newWords dict w s.visited).reverse ++ s.visited⟩ := by
  cases hq : s.toVisit with
  | nil => simp [ladderIter, hq] at h
  | cons p rest =>
    cases hl : p.last with
    | none => simp [ladderIter, hq, hl] at h
    | some w =>
      by_cases hwe : w = e
      · subst hwe
        rw [ladderIter_found dict w s p rest hq hl] at h
        cases h
      · rw [ladderIter_next dict e s p rest w hq hl hwe] at h
        cases h
        exact ⟨p, rest, w, rfl, hl, hwe, rfl⟩

theorem ladderIter_inl {dict : Dictionary} {e : Word} {s : LadderState} {q : WordPath}
    (h : ladderIter dict e s = some (Sum.inl q)) :
    ∃ rest, s.toVisit = q :: rest ∧ q.last = some e := by
  cases hq : s.toVisit with
  | nil => simp [ladderIter, hq] at h
  | cons p rest =>
    cases hl : p.last with
    | none => simp [ladderIter, hq, hl] at h
    | some w =>
      by_cases hwe : w = e
      · subst hwe
        rw [ladderIter_found dict w s p rest hq hl] at h
        cases h
        exact ⟨rest, rfl, hl⟩
      · rw [ladderIter_next dict e s p rest w hq hl hwe] at h
        cases h

theorem exploreAfter_inv (dict : Dictionary) (b : Word) :
    ∀ (n : Nat) (s : ExploreState), exploreAfter dict b n = some s →
      ∃ D, Inv dict b D s.toVisit s.visited
  | 0, s, h => by
    simp only [exploreAfter, exploreInit_eq] at h
    cases h
    exact ⟨[], Inv.init dict b⟩
  | n + 1, s, h => by
    simp only [exploreAfter] at h
    cases h0 : exploreAfter dict b n with
    | none => rw [h0] at h; simp at h
    | some s0 =>
      rw [h0] at h
      simp only [Option.some_bind] at h
      obtain ⟨D, hD⟩ := exploreAfter_inv dict b n s0 h0
      obtain ⟨p, rest, w, hq, hw, rfl⟩ := exploreIter_some h
      rw [hq] at hD
      exact ⟨D ++ [p], hD.preserved hw⟩

theorem ladderAfter_inv (dict : Dictionary) (b e : Word) :
    ∀ (n : Nat) (s : LadderState), ladderAfter dict b e n = some s →
      ∃ D, Inv dict b D s.toVisit s.visited
  | 0, s, h => by
    simp only [ladderAfter, ladderInit_eq] at h
    cases h
    exact ⟨[], Inv.init dict b⟩
  | n + 1, s, h => by
    simp only [ladderAfter] at h
    cases h0 : ladderAfter dict b e n with
    | none => rw [h0] at h; simp at h
    | some s0 =>
      rw [h0] at h
      simp only [Option.some_bind] at h
      obtain ⟨D, hD⟩ := ladderAfter_inv dict b e n s0 h0
      cases hi : ladderIter dict e s0 with
      | none => rw [hi] at h; simp at h
      | some x =>
        rw [hi] at h
        cases x with
        | inl q => simp at h
        | inr s1 =>
          simp only [Option.some.injEq] at h
          subst h
          obtain ⟨p, rest, w, hq, hw, _, rfl⟩ := ladderIter_inr hi
          rw [hq] at hD
          exact ⟨D ++ [p], hD.preserved hw⟩

/-- The loop of `explore` goes through the states of `exploreAfter`. -/
theorem exploreLoop_after (dict : Dictionary) (b : Word) :
    ∀ (n : Nat) (s : ExploreState), exploreAfter dict b n = some s →
      ∀ k, exploreLoop dict (n + k) (exploreInit b) = exploreLoop dict k s
  | 0, s, h, k => by
    simp only [exploreAfter] at h
    cases h
    simp
  | n + 1, s, h, k => by
    simp only [exploreAfter] at h
    cases h0 : exploreAfter dict b n with
    | none => rw [h0] at h; simp at h
    | some s0 =>
      rw [h0] at h
      simp only [Option.some_bind] at h
      have ih := exploreLoop_after dict b n s0 h0 (k + 1)
      obtain ⟨p, rest, w, hq, _, _⟩ := exploreIter_some h
      have e1 : n + 1 + k = n + (k + 1) := by omega
      rw [e1, ih]
      simp [exploreLoop, hq, h]

/-- The loop of `findWordLadder` goes through the states of `ladderAfter`. -/
theorem findWordLadderLoop_after (dict : Dictionary) (b e : Word) :
    ∀ (n : Nat) (s : LadderState), ladderAfter dict b e n = some s →
      ∀ k, findWordLadderLoop dict e (n + k) (ladderInit b) = findWordLadderLoop dict e k s
  | 0, s, h, k => by
    simp only [ladderAfter] at h
    cases h
    simp
  | n + 1, s, h, k => by
    simp only [ladderAfter] at h
    cases h0 : ladderAfter dict b e n with
    | none => rw [h0] at h; simp at h
    | some s0 =>
      rw [h0] at h
      simp only [Option.some_bind] at h
      have ih := findWordLadderLoop_after dict b e n s0 h0 (k + 1)
      cases hi : ladderIter dict e s0 with
      | none => rw [hi] at h; simp at h
      | some x =>
        rw [hi] at h
        cases x with
        | inl q => simp at h
        | inr s1 =>
          simp only [Option.some.injEq] at h
          subst h
          obtain ⟨p, rest, w, hq, _, _, _⟩ := ladderIter_inr hi
          have e1 : n + 1 + k = n + (k + 1) := by omega
          rw [e1, ih]
          simp [findWordLadderLoop, hq, hi]

/-! ## Paths of the deque -/

theorem Inv.dist {dict : Dictionary} {b : Word} {D Q : List WordPath} {V : List Word}
    (h : Inv dict b D Q V) {p : WordPath} (hp : p ∈ D ++ Q) :
    ∃ w d, p.last = some w ∧ IsDist dict b w d ∧ p.length = d + 1 := by
  have hv := h.valid p hp
  have hne : p.d_words ≠ [] := by
    intro e
    have := hv.1
    rw [e] at this
    simp at this
  have hpos : 0 < p.length := List.length_pos.mpr hne
  have hlast : p.last = some (p.d_words.getLast hne) := List.getLast?_eq_getLast _ _
  refine ⟨_, p.length - 1, hlast, ⟨walkN_of_valid hv.1 hv.2 hlast, ?_⟩, by omega⟩
  intro m hm
  have := h.shortest p hp _ hlast m hm
  omega

theorem nodup_of_no_repeat {α : Type} (l : List α)
    (h : ∀ (l1 : List α) (x : α) (l2 t : List α), l = l1 ++ x :: (l2 ++ x :: t) → False) :
    l.Nodup := by
  induction l with
  | nil => exact List.nodup_nil
  | cons a l ih =>
    rw [List.nodup_cons]
    refine ⟨?_, ?_⟩
    · intro hmem
      obtain ⟨l2, t, rfl⟩ := List.append_of_mem hmem
      exact h [] a l2 t rfl
    · apply ih
      intro l1 x l2 t e
      exact h (a :: l1) x l2 t (by rw [e]; rfl)

theorem Inv.simple {dict : Dictionary} {b : Word} {D Q : List WordPath} {V : List Word}
    (h : Inv dict b D Q V) {p : WordPath} (hp : p ∈ D ++ Q) : p.d_words.Nodup := by
  apply nodup_of_no_repeat
  intro l1 x l2 t e
  have hv := h.valid p hp
  obtain ⟨w, _, hw, _, _⟩ := h.dist hp
  -- the walk along the prefix that ends at the first `x`
  have e1 : p.d_words = (l1 ++ [x]) ++ (l2 ++ x :: t) := by rw [e]; simp
  have hc1 : (l1 ++ [x]).Chain' (adjStep dict) := by
    have := hv.2
    rw [e1] at this
    exact this.left_of_append
  have hh1 : (l1 ++ [x]).head? = some b := by
    have := hv.1
    rw [e1, List.head?_append_of_ne_nil _ (by simp)] at this
    exact this
  have hw1 : WalkN dict b l1.length x := by
    have hlx : (WordPath.mk (l1 ++ [x])).last = some x := by simp [WordPath.last]
    have := walkN_of_valid (p := ⟨l1 ++ [x]⟩) hh1 hc1 hlx
    simpa [WordPath.length] using this
  -- and on along the rest of the path behind the second `x`
  have e2 : p.d_words = (l1 ++ x :: l2) ++ (x :: t) := by rw [e]; simp
  have hc2 : List.Chain (adjStep dict) x t := by
    have := hv.2
    rw [e2] at this
    exact this.right_of_append
  have hl2 : (x :: t).getLast? = some w := by
    have : p.d_words.getLast? = some w := hw
    rw [e2, List.getLast?_append_of_ne_nil _ (by simp)] at this
    exact this
  have hw2 := walkN_chain t x l1.length hw1 hc2 w hl2
  have hs := h.shortest p hp w hw _ hw2
  have hlen : p.length = l1.length + 1 + l2.length + 1 + t.length := by
    simp only [WordPath.length, e, List.length_append, List.length_cons]
    omega
  omega

theorem chain_length_eq :
    ∀ (t : List Word) (a : Word), List.Chain differInOne a t → ∀ x ∈ t, x.length = a.length
  | [], _, _, x, hx => by simp at hx
  | v :: t, a, hc, x, hx => by
    rw [List.chain_cons] at hc
    rcases List.mem_cons.mp hx with e | e
    · subst e; exact hc.1.1.symm
    · rw [chain_length_eq t v hc.2 x e]; exact hc.1.1.symm

theorem Inv.word_length {dict : Dictionary} {b : Word} {D Q : List WordPath} {V : List Word}
    (h : Inv dict b D Q V) {p : WordPath} (hp : p ∈ D ++ Q) :
    ∀ w ∈ p.d_words, w.length = b.length := by
  have hv := h.valid p hp
  have hc : p.d_words.Chain' differInOne := hv.2.imp (fun _ _ h => adjStep_differInOne h)
  cases hd : p.d_words with
  | nil => simp
  | cons a t =>
    rw [hd] at hv hc
    have hab : a = b := by simpa using hv.1
    subst hab
    intro w hw
    rcases List.mem_cons.mp hw with e | e
    · rw [e]
    · exact chain_length_eq t a hc w e

theorem Inv.path_facts {dict : Dictionary} {b : Word} {D Q : List WordPath} {V : List Word}
    (h : Inv dict b D Q V) {p : WordPath} (hp : p ∈ D ++ Q) :
    p.d_words ≠ [] ∧ p.d_words.head? = some b ∧ p.d_words.Chain' differInOne ∧
      p.d_words.Nodup := by
  have hv := h.valid p hp
  refine ⟨?_, hv.1, hv.2.imp (fun _ _ h => adjStep_differInOne h), h.simple hp⟩
  intro e
  have := hv.1
  rw [e] at this
  simp at this

/-- C11: every path placed in the deque by `explore` or `findWordLadder` has
1 plus as many words as the shortest chain of `getAdjacentWords` steps from
the start word to the path's last word has steps. -/
theorem frontier_path_length_is_distance (dict : Dictionary) (b e : Word) :
    (∀ n s, exploreAfter dict b n = some s → ∀ p ∈ s.toVisit,
      ∃ w d, p.last = some w ∧ IsDist dict b w d ∧ p.length = d + 1) ∧
    (∀ n s, ladderAfter dict b e n = some s → ∀ p ∈ s.toVisit,
      ∃ w d, p.last = some w ∧ IsDist dict b w d ∧ p.length = d + 1) := by
  refine ⟨?_, ?_⟩
  · intro n s hs p hp
    obtain ⟨D, hD⟩ := exploreAfter_inv dict b n s hs
    exact hD.dist (List.mem_append_right _ hp)
  · intro n s hs p hp
    obtain ⟨D, hD⟩ := ladderAfter_inv dict b e n s hs
    exact hD.dist (List.mem_append_right _ hp)

theorem Inv.iter_defined {dict : Dictionary} {b : Word} {D Q : List WordPath} {V : List Word}
    (h : Inv dict b D Q V) (hne : Q ≠ []) :
    (∀ longest, ∃ s', exploreIter dict ⟨Q, V, longest⟩ = some s') ∧
    (∀ e, ∃ r, ladderIter dict e ⟨Q, V⟩ = some r) := by
  cases Q with
  | nil => exact absurd rfl hne
  | cons p rest =>
    obtain ⟨w, hw, _⟩ := h.front_last
    refine ⟨fun longest => ⟨_, exploreIter_cons dict _ p rest w rfl hw⟩, fun e => ?_⟩
    by_cases hwe : w = e
    · subst hwe
      exact ⟨_, ladderIter_found dict w _ p rest rfl hw⟩
    · exact ⟨_, ladderIter_next dict e _ p rest w rfl hw hwe⟩

/-- C14: every path in the deque at every iteration of `explore` and
`findWordLadder` is non-empty, begins with the start word, has consecutive
words that differ in exactly one position and holds no word twice; so the
iteration, which reads `last()` and `terminatesAt()` of the front path, is
defined whenever the deque is not empty. -/
theorem frontier_paths_are_simple (dict : Dictionary) (b e : Word) :
    (∀ n s, exploreAfter dict b n = some s →
      (∀ p ∈ s.toVisit, p.d_words ≠ [] ∧ p.d_words.head? = some b ∧
        p.d_words.Chain' differInOne ∧ p.d_words.Nodup) ∧
      (s.toVisit ≠ [] → ∃ s', exploreIter dict s = some s')) ∧
    (∀ n s, ladderAfter dict b e n = some s →
      (∀ p ∈ s.toVisit, p.d_words ≠ [] ∧ p.d_words.head? = some b ∧
        p.d_words.Chain' differInOne ∧ p.d_words.Nodup) ∧
      (s.toVisit ≠ [] → ∃ r, ladderIter dict e s = some r)) := by
  refine ⟨?_, ?_⟩
  · intro n s hs
    obtain ⟨D, hD⟩ := exploreAfter_inv dict b n s hs
    exact ⟨fun p hp => hD.path_facts (List.mem_append_right _ hp),
      fun hne => (hD.iter_defined hne).1 s.longestWordPath⟩
  · intro n s hs
    obtain ⟨D, hD⟩ := ladderAfter_inv dict b e n s hs
    exact ⟨fun p hp => hD.path_facts (List.mem_append_right _ hp),
      fun hne => (hD.iter_defined hne).2 e⟩

/-! ## `findWordLadder` as a cut-off `explore` -/

theorem cutAt_sublist (e : Word) : ∀ l : List WordPath, (cutAt e l).Sublist l
  | [] => List.Sublist.slnil
  | p :: ps => by
    simp only [cutAt]
    split
    · exact (List.nil_sublist ps).cons₂ p
    · exact (cutAt_sublist e ps).cons₂ p

theorem cutAt_eq_self (e : Word) :
    ∀ l : List WordPath, (∀ p ∈ l, p.last ≠ some e) → cutAt e l = l
  | [], _ => rfl
  | p :: ps, h => by
    simp only [cutAt]
    rw [if_neg (h p (List.mem_cons_self _ _)),
      cutAt_eq_self e ps (fun q hq => h q (List.mem_cons_of_mem _ hq))]

theorem find_eq_none_of_no_last (e : Word) (l : List WordPath)
    (h : ∀ p ∈ l, p.last ≠ some e) : l.find? (fun p => decide (p.last = some e)) = none := by
  rw [List.find?_eq_none]
  intro p hp
  simpa using h p hp

theorem ladder_simulation (dict : Dictionary) (e : Word) :
    ∀ (fuel : Nat) (sE : ExploreState) (sL : LadderState),
      sE.toVisit = sL.toVisit → sE.visited = sL.visited →
      ladderDequeued dict e fuel sL = cutAt e (exploreDequeued dict fuel sE) ∧
      findWordLadderLoop dict e fuel sL =
        match (exploreDequeued dict fuel sE).find? (fun p => decide (p.last = some e)) with
        | some p => some (LadderOutcome.found p)
        | none => (exploreLoop dict fuel sE).map fun _ => LadderOutcome.notFound
  | 0, _, _, _, _ => by
    simp [ladderDequeued, exploreDequeued, cutAt, findWordLadderLoop, exploreLoop]
  | fuel + 1, sE, sL, hQ, hV => by
    cases hq : sL.toVisit with
    | nil =>
      have hqE : sE.toVisit = [] := hQ.trans hq
      simp [ladderDequeued, exploreDequeued, cutAt, findWordLadderLoop, exploreLoop, hq, hqE]
    | cons p rest =>
      have hqE : sE.toVisit = p :: rest := hQ.trans hq
      cases hl : p.last with
      | none =>
        have h1 : exploreIter dict sE = none := by simp [exploreIter, hqE, hl]
        have h2 : ladderIter dict e sL = none := by simp [ladderIter, hq, hl]
        simp [ladderDequeued, exploreDequeued, cutAt, findWordLadderLoop, exploreLoop, hq, hqE,
          h1, h2, hl]
      | some w =>
        have h1 := exploreIter_cons dict sE p rest w hqE hl
        by_cases hwe : w = e
        · subst hwe
          have h2 := ladderIter_found dict w sL p rest hq hl
          simp [ladderDequeued, exploreDequeued, cutAt, findWordLadderLoop, hq, hqE,
            h1, h2, hl]
        · have h2 := ladderIter_next dict e sL p rest w hq hl hwe
          have hne : ¬ p.last = some e := by
            rw [hl]
            intro h
            exact hwe (Option.some.inj h)
          have ih := ladder_simulation dict e fuel
            ⟨rest ++ (newWords dict w sE.visited).map p.add,
              (newWords dict w sE.visited).reverse ++ sE.visited,
              if p.length > sE.longestWordPath.length then p else sE.longestWordPath⟩
            ⟨rest ++ (newWords dict w sL.visited).map p.add,
              (newWords dict w sL.visited).reverse ++ sL.visited⟩
            (by rw [hV]) (by rw [hV])
          simp only [ladderDequeued, exploreDequeued, cutAt, findWordLadderLoop, exploreLoop, hq,
            hqE, h1, h2, hne, if_false, List.isEmpty_cons, Bool.false_eq_true,
            Option.some_bind, List.find?_cons, decide_False]
          exact ⟨by rw [ih.1], ih.2⟩

theorem ladder_simulation_init (dict : Dictionary) (b e : Word) :
    ladderDequeued dict e (dict.length + 2) (ladderInit b) =
      cutAt e (exploreDequeued dict (dict.length + 2) (exploreInit b)) ∧
    findWordLadderOutcome dict b e =
      match (exploreDequeued dict (dict.length + 2) (exploreInit b)).find?
          (fun p => decide (p.last = some e)) with
      | some p => some (LadderOutcome.found p)
      | none => (exploreRun dict b).map fun _ => LadderOutcome.notFound :=
  ladder_simulation dict e (dict.length + 2) (exploreInit b) (ladderInit b)
    (by simp [exploreInit, ladderInit]) (by simp [exploreInit, ladderInit])

theorem found_iff_dequeued (dict : Dictionary) (b e : Word) (p : WordPath) :
    findWordLadderOutcome dict b e = some (LadderOutcome.found p) ↔
      p ∈ exploreDequeued dict (dict.length + 2) (exploreInit b) ∧ p.last = some e := by
  obtain ⟨s, h1, _, h3, _⟩ := exploreRun_spec dict b
  rw [(ladder_simulation_init dict b e).2, h1]
  constructor
  · intro h
    cases hf : (exploreDequeued dict (dict.length + 2) (exploreInit b)).find?
        (fun p => decide (p.last = some e)) with
    | none => rw [hf] at h; simp at h
    | some q =>
      rw [hf] at h
      simp only [Option.some.injEq, LadderOutcome.found.injEq] at h
      subst h
      exact ⟨List.mem_of_find?_eq_some hf, by simpa using List.find?_some hf⟩
  · rintro ⟨hp, hl⟩
    cases hf : (exploreDequeued dict (dict.length + 2) (exploreInit b)).find?
        (fun p => decide (p.last = some e)) with
    | none =>
      have := List.find?_eq_none.mp hf p hp
      simp [hl] at this
    | some q =>
      have hq := List.mem_of_find?_eq_some hf
      have hql : q.last = some e := by simpa using List.find?_some hf
      have hnd : ((exploreDequeued dict (dict.length + 2) (exploreInit b)).map
          WordPath.last).Nodup := by
        have := h3.lasts
        simp only [List.append_nil] at this
        rw [this.nodup_iff]
        exact h3.nodup.map (Option.some_injective _)
      have : q = p := List.inj_on_of_nodup_map hnd hq hp (hql.trans hl.symm)
      simp [this]

/-- C19: the sequence of paths dequeued by `findWordLadder` is the sequence of
paths dequeued by `explore` from the same begin word, cut off at the first
path whose last word is the end word; `findWordLadder` outputs a ladder
exactly when the end word is in the final visited set of `explore`, the
ladder is the path that `explore` dequeues for that word, and without one the
whole sequence is dequeued. -/
theorem findWordLadder_refines_explore (dict : Dictionary) (b e : Word) :
    ladderDequeued dict e (dict.length + 2) (ladderInit b) =
      cutAt e (exploreDequeued dict (dict.length + 2) (exploreInit b)) ∧
    ∃ s, exploreRun dict b = some s ∧
      ((∃ p, findWordLadderOutcome dict b e = some (LadderOutcome.found p)) ↔
        e ∈ s.visited) ∧
      (∀ p, findWordLadderOutcome dict b e = some (LadderOutcome.found p) ↔
        p ∈ exploreDequeued dict (dict.length + 2) (exploreInit b) ∧ p.last = some e) ∧
      (e ∉ s.visited →
        findWordLadderOutcome dict b e = some LadderOutcome.notFound ∧
        ladderDequeued dict e (dict.length + 2) (ladderInit b) =
          exploreDequeued dict (dict.length + 2) (exploreInit b)) := by
  obtain ⟨s, h1, _, h3, _⟩ := exploreRun_spec dict b
  refine ⟨(ladder_simulation_init dict b e).1, s, h1, ?_, found_iff_dequeued dict b e, ?_⟩
  · constructor
    · rintro ⟨p, hp⟩
      obtain ⟨hm, hl⟩ := (found_iff_dequeued dict b e p).mp hp
      exact h3.last_mem (by simpa using hm) hl
    · intro he
      obtain ⟨p, hp, hl⟩ := h3.exists_path he
      exact ⟨p, (found_iff_dequeued dict b e p).mpr ⟨by simpa using hp, hl⟩⟩
  · intro he
    have hno : ∀ p ∈ exploreDequeued dict (dict.length + 2) (exploreInit b),
        p.last ≠ some e := by
      intro p hp hl
      exact he (h3.last_mem (by simpa using hp) hl)
    refine ⟨?_, ?_⟩
    · rw [(ladder_simulation_init dict b e).2, find_eq_none_of_no_last e _ hno, h1]
      rfl
    · rw [(ladder_simulation_init dict b e).1, cutAt_eq_self e _ hno]

/-! ## The order of the deque -/

/-- C12: at every iteration of the loops the lengths of the paths in the
deque do not decrease from front to back and no path of the deque is more
than one word longer than another (so the last is at most one word longer
than the first); the paths are dequeued in non-decreasing order of length. -/
theorem frontier_lengths_sorted (dict : Dictionary) (b e : Word) :
    (∀ n s, exploreAfter dict b n = some s →
      s.toVisit.Pairwise (fun p q => p.length ≤ q.length) ∧
      ∀ p ∈ s.toVisit, ∀ q ∈ s.toVisit, q.length ≤ p.length + 1) ∧
    (∀ n s, ladderAfter dict b e n = some s →
      s.toVisit.Pairwise (fun p q => p.length ≤ q.length) ∧
      ∀ p ∈ s.toVisit, ∀ q ∈ s.toVisit, q.length ≤ p.length + 1) ∧
    (exploreDequeued dict (dict.length + 2) (exploreInit b)).Pairwise
      (fun p q => p.length ≤ q.length) ∧
    (ladderDequeued dict e (dict.length + 2) (ladderInit b)).Pairwise
      (fun p q => p.length ≤ q.length) := by
  have hE : (exploreDequeued dict (dict.length + 2) (exploreInit b)).Pairwise
      (fun p q => p.length ≤ q.length) := by
    obtain ⟨s, _, _, h3, _⟩ := exploreRun_spec dict b
    simpa using h3.sorted
  refine ⟨?_, ?_, hE, ?_⟩
  · intro n s hs
    obtain ⟨D, hD⟩ := exploreAfter_inv dict b n s hs
    exact ⟨(List.pairwise_append.mp hD.sorted).2.1, hD.window⟩
  · intro n s hs
    obtain ⟨D, hD⟩ := ladderAfter_inv dict b e n s hs
    exact ⟨(List.pairwise_append.mp hD.sorted).2.1, hD.window⟩
  · rw [(ladder_simulation_init dict b e).1]
    exact hE.sublist (cutAt_sublist e _)

/-! ## One iteration -/

theorem mem_reverse_newWords_append (dict : Dictionary) (w : Word) (V : List Word) (x : Word) :
    x ∈ (newWords dict w V).reverse ++ V ↔
      x ∈ V ∨ (x ∈ getAdjacentWords [] w dict ∧ x ∉ V) := by
  rw [List.mem_append, List.mem_reverse, mem_newWords]
  exact Or.comm

/-- C13: one iteration on the deque `p :: rest` with visited set `V`, where
`w` is the last word of `p`, leaves the deque `rest` followed by the paths
`p ++ [x]` for the words `x` of `getAdjacentWords` of `w` that are not in
`V`, in generator order, and the visited set `V` extended by exactly those
words; the dequeued path `p` holds the same words after the loop over the
neighbours as before. -/
theorem iteration_expands_front (dict : Dictionary) (p : WordPath) (rest : List WordPath)
    (V : List Word) (w e : Word) (longest : WordPath) (hw : p.last = some w) :
    exploreIter dict ⟨p :: rest, V, longest⟩ =
      some ⟨rest ++ ((getAdjacentWords [] w dict).filter fun x => decide (x ∉ V)).map
              fun x => ⟨p.d_words ++ [x]⟩,
            ((getAdjacentWords [] w dict).filter fun x => decide (x ∉ V)).reverse ++ V,
            if p.length > longest.length then p else longest⟩ ∧
    (w ≠ e → ladderIter dict e ⟨p :: rest, V⟩ =
      some (Sum.inr
        ⟨rest ++ ((getAdjacentWords [] w dict).filter fun x => decide (x ∉ V)).map
              fun x => ⟨p.d_words ++ [x]⟩,
            ((getAdjacentWords [] w dict).filter fun x => decide (x ∉ V)).reverse ++ V⟩)) ∧
    (∀ x, x ∈ ((getAdjacentWords [] w dict).filter fun x => decide (x ∉ V)).reverse ++ V ↔
      x ∈ V ∨ (x ∈ getAdjacentWords [] w dict ∧ x ∉ V)) ∧
    ((getAdjacentWords [] w dict).foldl (fun st word => visitNeighbor word st)
      (p, rest, V)).1 = p := by
  refine ⟨exploreIter_cons dict _ p rest w rfl hw,
    fun hne => ladderIter_next dict e _ p rest w rfl hw hne,
    mem_reverse_newWords_append dict w V, ?_⟩
  rw [foldl_visitNeighbor _ (getAdjacentWords_nodup w dict)]

/-- A use of C13: the first iteration on scenario A of the specification. -/
theorem iteration_expands_front_witness :
    exploreIter
        [['C', 'A', 'T'], ['C', 'O', 'T'], ['C', 'O', 'G'], ['D', 'O', 'G'], ['C', 'O', 'W']]
        ⟨[⟨[['C', 'A', 'T']]⟩], [['C', 'A', 'T']], ⟨[]⟩⟩ =
      some ⟨[⟨[['C', 'A', 'T'], ['C', 'O', 'T']]⟩], [['C', 'O', 'T'], ['C', 'A', 'T']],
        ⟨[['C', 'A', 'T']]⟩⟩ := by
  have h := (iteration_expands_front
    [['C', 'A', 'T'], ['C', 'O', 'T'], ['C', 'O', 'G'], ['D', 'O', 'G'], ['C', 'O', 'W']]
    ⟨[['C', 'A', 'T']]⟩ [] [['C', 'A', 'T']] ['C', 'A', 'T'] ['D', 'O', 'G'] ⟨[]⟩
    (by decide)).1
  rw [h]
  decide

/-! ## Words of a different length -/

/-- C20: every word of every path placed in the deque has the length of the
begin word; hence, for an end word of another length, `findWordLadder`
dequeues every path that `explore` dequeues and outputs
"No word ladder found.". -/
theorem findWordLadder_length_mismatch (dict : Dictionary) (b e : Word)
    (hlen : e.length ≠ b.length) :
    (∀ n s, exploreAfter dict b n = some s →
      ∀ p ∈ s.toVisit, ∀ w ∈ p.d_words, w.length = b.length) ∧
    (∀ n s, ladderAfter dict b e n = some s →
      ∀ p ∈ s.toVisit, ∀ w ∈ p.d_words, w.length = b.length) ∧
    ladderDequeued dict e (dict.length + 2) (ladderInit b) =
      exploreDequeued dict (dict.length + 2) (exploreInit b) ∧
    findWordLadderOutcome dict b e = some LadderOutcome.notFound ∧
    findWordLadder dict b e = some "No word ladder found.\n" := by
  obtain ⟨s, h1, _, h3, _⟩ := exploreRun_spec dict b
  have hno : ∀ p ∈ exploreDequeued dict (dict.length + 2) (exploreInit b),
      p.last ≠ some e := by
    intro p hp hl
    have hp' : p ∈ exploreDequeued dict (dict.length + 2) (exploreInit b) ++ [] := by
      simpa using hp
    have := h3.word_length hp' e (List.mem_of_mem_getLast? hl)
    exact hlen this
  have hout : findWordLadderOutcome dict b e = some LadderOutcome.notFound := by
    rw [(ladder_simulation_init dict b e).2, find_eq_none_of_no_last e _ hno, h1]
    rfl
  refine ⟨?_, ?_, ?_, hout, findWordLadder_of_notFound hout⟩
  · intro n s hs p hp
    obtain ⟨D, hD⟩ := exploreAfter_inv dict b n s hs
    exact hD.word_length (List.mem_append_right _ hp)
  · intro n s hs p hp
    obtain ⟨D, hD⟩ := ladderAfter_inv dict b e n s hs
    exact hD.word_length (List.mem_append_right _ hp)
  · rw [(ladder_simulation_init dict b e).1, cutAt_eq_self e _ hno]

/-- A use of C20: an end word of four letters. -/
theorem findWordLadder_length_mismatch_witness :
    findWordLadder [['C', 'A', 'T'], ['C', 'O', 'T'], ['D', 'O', 'G', 'S']] ['C', 'A', 'T']
      ['D', 'O', 'G', 'S'] = some "No word ladder found.\n" :=
  (findWordLadder_length_mismatch [['C', 'A', 'T'], ['C', 'O', 'T'], ['D', 'O', 'G', 'S']]
    ['C', 'A', 'T'] ['D', 'O', 'G', 'S'] (by decide)).2.2.2.2

/-! ## The longest path -/

theorem exploreLoop_history (dict : Dictionary) (P : List WordPath → ExploreState → Prop)
    (hstep : ∀ D s p rest s', s.toVisit = p :: rest → exploreIter dict s = some s' →
      P D s → P (D ++ [p]) s') :
    ∀ (fuel : Nat) (s : ExploreState) (D : List WordPath) (r : ExploreState),
      exploreLoop dict fuel s = some r → P D s → P (D ++ exploreDequeued dict fuel s) r
  | 0, _, _, _, h, _ => by simp [exploreLoop] at h
  | fuel + 1, s, D, r, h, hP => by
    cases hq : s.toVisit with
    | nil =>
      simp [exploreLoop, hq] at h
      subst h
      simpa [exploreDequeued, hq] using hP
    | cons p rest =>
      cases hi : exploreIter dict s with
      | none => simp [exploreLoop, hq, hi] at h
      | some s1 =>
        simp only [exploreLoop, hq, hi, List.isEmpty_cons, Bool.false_eq_true, if_false,
          Option.some_bind] at h
        have := exploreLoop_history dict P hstep fuel s1 (D ++ [p]) r h
          (hstep D s p rest s1 hq hi hP)
        simpa [exploreDequeued, hq, hi] using this

theorem firstLongest_step {D : List WordPath} {longest p : WordPath} (hp : 0 < p.length)
    (h : (D = [] ∧ longest = WordPath.empty) ∨ FirstLongest D longest) :
    FirstLongest (D ++ [p]) (if p.length > longest.length then p else longest) := by
  rcases h with ⟨hD, hl⟩ | ⟨A, B, hD, hA, hB⟩
  · subst hD hl
    have : p.length > WordPath.empty.length := by simpa [WordPath.empty, WordPath.length] using hp
    rw [if_pos this]
    exact ⟨[], [], rfl, by simp, by simp⟩
  · by_cases hgt : p.length > longest.length
    · rw [if_pos hgt]
      refine ⟨D, [], rfl, ?_, by simp⟩
      intro a ha
      rw [hD] at ha
      rcases List.mem_append.mp ha with ha | ha
      · have := hA a ha; omega
      · rcases List.mem_cons.mp ha with ha | ha
        · subst ha; exact hgt
        · have := hB a ha; omega
    · rw [if_neg hgt]
      refine ⟨A, B ++ [p], by rw [hD]; simp, hA, ?_⟩
      intro q hq
      rcases List.mem_append.mp hq with hq | hq
      · exact hB q hq
      · simp at hq; subst hq; omega

/-- C16: the longest path that `explore` reports (the path in the text that
it writes) is the first path, in dequeue order, of the greatest length among
the dequeued paths: every path dequeued before it is shorter and no path
dequeued after it is longer; an iteration replaces `longestWordPath` only by
a strictly longer path. -/
theorem explore_longest_is_first (dict : Dictionary) (b : Word) :
    (∃ s, exploreRun dict b = some s ∧
      explore dict b =
        some ("Connected component of " ++ String.mk b
          ++ " has " ++ toString s.visited.length ++ " elements.\n"
          ++ "A longest path starting from "
          ++ String.mk b ++ ": " ++ s.longestWordPath.print "" ++ " is of length "
          ++ toString s.longestWordPath.length ++ "\n") ∧
      ∃ A B, exploreDequeued dict (dict.length + 2) (exploreInit b) =
          A ++ s.longestWordPath :: B ∧
        (∀ a ∈ A, a.length < s.longestWordPath.length) ∧
        ∀ q ∈ B, q.length ≤ s.longestWordPath.length) ∧
    (∀ s s', exploreIter dict s = some s' → s'.longestWordPath ≠ s.longestWordPath →
      s'.longestWordPath = s.toVisit.headD WordPath.empty ∧
      s.longestWordPath.length < s'.longestWordPath.length) := by
  refine ⟨?_, ?_⟩
  · obtain ⟨s, h1, _⟩ := exploreRun_spec dict b
    have := exploreLoop_history dict
      (fun D s => (D = [] ∧ s.longestWordPath = WordPath.empty) ∨
        FirstLongest D s.longestWordPath)
      (by
        intro D s p rest s' hq hi hP
        obtain ⟨p', rest', w, hq', hw, rfl⟩ := exploreIter_some hi
        rw [hq] at hq'
        cases hq'
        have hpos : 0 < p.length := by
          unfold WordPath.last at hw
          unfold WordPath.length
          cases hp : p.d_words with
          | nil => rw [hp] at hw; simp at hw
          | cons a t => simp
        exact Or.inr (firstLongest_step hpos hP))
      (dict.length + 2) (exploreInit b) [] s h1 (Or.inl ⟨rfl, by simp [exploreInit]⟩)
    rcases this with ⟨hD, _⟩ | hF
    · simp only [List.nil_append] at hD
      exact absurd hD (exploreDequeued_init_ne_nil dict b)
    · simp only [List.nil_append] at hF
      exact ⟨s, h1, explore_text h1, hF⟩
  · intro s s' hi hne
    obtain ⟨p, rest, w, hq, _, rfl⟩ := exploreIter_some hi
    simp only at hne ⊢
    by_cases hgt : p.length > s.longestWordPath.length
    · simp [hgt, hq]
    · simp [hgt] at hne

/-! ## The text of a path, in full -/

theorem print_loop (ws : List Word) :
    ∀ (suf pre : List Word) (o : String), ws = pre ++ suf →
      (List.range' pre.length suf.length).foldl
        (fun o i =>
          if i ≠ ws.length - 1 then o ++ String.mk (ws.getD i []) ++ " -> "
          else o ++ String.mk (ws.getD i [])) o = o ++ arrowJoin suf
  | [], _, o, _ => by simp [arrowJoin]
  | w :: suf, pre, o, h => by
    have hget : ws.getD pre.length [] = w := by
      have : (pre ++ w :: suf)[pre.length]? = some w := by
        rw [List.getElem?_append_right (Nat.le_refl _)]
        simp
      rw [h, List.getD_eq_getElem?_getD, this]
      rfl
    have hlen : ws.length = pre.length + 1 + suf.length := by
      rw [h]
      simp only [List.length_append, List.length_cons]
      omega
    have ih := print_loop ws suf (pre ++ [w])
    simp only [List.length_append, List.length_singleton] at ih
    simp only [List.length_cons, List.range'_succ, List.foldl_cons, hget]
    cases suf with
    | nil =>
      have : ¬ pre.length ≠ ws.length - 1 := by
        simp only [List.length_nil] at hlen
        omega
      rw [if_neg this]
      simp [arrowJoin]
    | cons w' suf' =>
      have : pre.length ≠ ws.length - 1 := by
        simp only [List.length_cons] at hlen
        omega
      rw [if_pos this, ih _ (by rw [h]; simp)]
      simp only [arrowJoin, String.append_assoc]

theorem print_eq (p : WordPath) (o : String) :
    p.print o = o ++ "[ " ++ arrowJoin p.d_words ++ " ]" := by
  have h := print_loop p.d_words p.d_words [] (o ++ "[ ") rfl
  simp only [List.length_nil] at h
  have hf : (fun (o : String) (i : Nat) =>
      if i ≠ p.d_words.length - 1 then o ++ String.mk (p.d_words.getD i []) ++ " -> "
      else o ++ String.mk (p.d_words.getD i [])) =
      (fun (o : String) (i : Nat) =>
        let o := o ++ String.mk (p.d_words.getD i [])
        if i ≠ p.d_words.length - 1 then o ++ " -> " else o) := rfl
  unfold WordPath.print
  simp only [List.range_eq_range']
  rw [← hf, h]

theorem intercalate_go :
    ∀ (ws : List Word) (acc : String),
      String.intercalate.go acc " -> " (ws.map String.mk) =
        acc ++ (if ws = [] then "" else " -> " ++ arrowJoin ws)
  | [], acc => by simp [String.intercalate.go]
  | [w], acc => by
    simp [String.intercalate.go, arrowJoin, String.append_assoc]
  | w :: w' :: ws, acc => by
    have ih := intercalate_go (w' :: ws) (acc ++ " -> " ++ String.mk w)
    simp only [List.map_cons, String.intercalate.go] at ih ⊢
    rw [ih]
    simp [arrowJoin, String.append_assoc]

theorem arrowJoin_eq_intercalate (ws : List Word) :
    arrowJoin ws = String.intercalate " -> " (ws.map String.mk) := by
  cases ws with
  | nil => rfl
  | cons w ws =>
    simp only [List.map_cons, String.intercalate]
    rw [intercalate_go ws (String.mk w)]
    cases ws with
    | nil => simp [arrowJoin]
    | cons w' ws => simp [arrowJoin, String.append_assoc]

theorem arrowJoin_concat :
    ∀ (ws : List Word) (w : Word),
      arrowJoin (ws ++ [w]) =
        (ws.foldr (fun x acc => String.mk x ++ " -> " ++ acc) "") ++ String.mk w
  | [], w => by simp [arrowJoin]
  | [x], w => by simp [arrowJoin, String.append_assoc]
  | x :: y :: ws, w => by
    have ih := arrowJoin_concat (y :: ws) w
    simp only [List.cons_append, List.foldr_cons, arrowJoin, List.append_eq] at ih ⊢
    rw [ih]
    simp [String.append_assoc]

/-- C18: `WordPath::print` writes `"[ "`, then the words in order joined by
`" -> "`, then `" ]"`; for a non-empty path `W1..Wn` every word but the last
is followed by the separator and the last word is followed by `" ]"`. -/
theorem print_writes_arrow_list (p : WordPath) (o : String) :
    p.print o = o ++ "[ " ++ String.intercalate " -> " (p.d_words.map String.mk) ++ " ]" ∧
    ∀ ws w, p.d_words = ws ++ [w] →
      p.print o = o ++ "[ " ++
        (ws.foldr (fun x acc => String.mk x ++ " -> " ++ acc) "") ++ String.mk w ++ " ]" := by
  refine ⟨?_, ?_⟩
  · rw [print_eq, arrowJoin_eq_intercalate]
  · intro ws w h
    rw [print_eq, h, arrowJoin_concat]
    simp only [String.append_assoc]

/-! ## Lower-case dictionary entries -/

theorem upper_not_lower (n : Nat) (h1 : 97 ≤ n) (h2 : n ≤ 122) :
    ¬ ('a' ≤ Char.ofNat (n - 32) ∧ Char.ofNat (n - 32) ≤ 'z') := by
  interval_cases n <;> decide

theorem toUpperChar_not_lower (c : Char) : ¬ ('a' ≤ toUpperChar c ∧ toUpperChar c ≤ 'z') := by
  unfold toUpperChar
  split
  · next h =>
    have h1 : 97 ≤ c.toNat := h.1
    have h2 : c.toNat ≤ 122 := h.2
    exact upper_not_lower c.toNat h1 h2
  · next h => exact h

theorem toUpper_not_hasLower (s : Word) : ¬ hasLower (toUpper s) := by
  rintro ⟨c, hc, hl⟩
  obtain ⟨d, _, rfl⟩ := List.mem_map.mp hc
  exact toUpperChar_not_lower d hl

theorem letter_not_lower {c : Char} (hc : c ∈ letters) : ¬ ('a' ≤ c ∧ c ≤ 'z') := by
  revert c
  decide

theorem set_not_hasLower {w : Word} (hw : ¬ hasLower w) (i : Nat) {c : Char}
    (hc : c ∈ letters) : ¬ hasLower (w.set i c) := by
  rintro ⟨d, hd, hl⟩
  rcases List.mem_or_eq_of_mem_set hd with h | h
  · exact hw ⟨d, h, hl⟩
  · subst h
    exact letter_not_lower hc hl

theorem mem_testedCandidates (w v : Word) :
    v ∈ testedCandidates w ↔ ∃ i, i < w.length ∧ ∃ c ∈ letters, v = w.set i c := by
  unfold testedCandidates
  simp only [List.mem_flatMap, List.mem_range, List.mem_map]
  constructor
  · rintro ⟨i, hi, c, hc, rfl⟩
    exact ⟨i, hi, c, hc, rfl⟩
  · rintro ⟨i, hi, c, hc, rfl⟩
    exact ⟨i, hi, c, hc, rfl⟩

theorem filter_flatMap {α β : Type} (f : α → List β) (q : β → Bool) (l : List α) :
    (l.flatMap f).filter q = l.flatMap fun a => (f a).filter q := by
  induction l with
  | nil => rfl
  | cons a l ih => simp [List.flatMap_cons, List.filter_append, ih]

theorem set_eq_self_iff (w : Word) (i : Nat) (h : i < w.length) (c : Char) :
    w.set i c = w ↔ w[i]? = some c := by
  constructor
  · intro e
    have := congrArg (fun l => l[i]?) e
    simp only [List.getElem?_set, h, if_true] at this
    exact this.symm
  · intro e
    apply List.ext_getElem?
    intro n
    rw [List.getElem?_set]
    split
    · next hn =>
      subst hn
      exact e.symm
    · rfl

/-- The generator keeps, of the candidates it tests, those that are in the
dictionary and are not the word itself. -/
theorem getAdjacentWords_eq_filter_tested (word : Word) (dict : Dictionary) :
    getAdjacentWords [] word dict =
      (testedCandidates word).filter fun v => decide (v ∈ dict ∧ v ≠ word) := by
  rw [getAdjacentWords_eq, List.nil_append]
  unfold neighborsSpec testedCandidates
  rw [filter_flatMap]
  apply List.flatMap_congr
  intro i hi
  have hi : i < word.length := List.mem_range.mp hi
  rw [List.filter_map]
  congr 1
  apply List.filter_congr
  intro c _
  simp only [Function.comp, decide_eq_decide]
  have hiff := set_eq_self_iff word i hi c
  constructor
  · rintro ⟨h1, h2⟩
    exact ⟨h2, fun e => h1 (hiff.mp e)⟩
  · rintro ⟨h1, h2⟩
    exact ⟨fun e => h2 (hiff.mpr e), h1⟩

theorem reachable_not_hasLower {dict : Dictionary} {b w : Word} (hb : ¬ hasLower b)
    (h : Reachable dict b w) : ¬ hasLower w := by
  induction h with
  | refl => exact hb
  | tail _ hs ih =>
    obtain ⟨i, _, c, hc, _, rfl, _⟩ := (mem_getAdjacentWords _ _ dict).mp hs
    exact set_not_hasLower ih i hc

theorem not_mem_of_hasLower {e w : Word} (he : hasLower e) (hw : ¬ hasLower w) :
    w ≠ e ∧ e ∉ testedCandidates w := by
  refine ⟨fun h => hw (h ▸ he), ?_⟩
  intro hm
  obtain ⟨i, _, c, hc, rfl⟩ := (mem_testedCandidates w e).mp hm
  exact set_not_hasLower hw i hc he

theorem main_exit_3 (files : Word → Option (List Word)) (argc : Int) (argv lines : List Word)
    (hargc : argc = 4 ∨ argc = 3) (hfile : files (argv.getD 1 []) = some lines)
    (hlow : ∀ l ∈ lines, hasLower l) :
    (main files argc argv).map (fun r => r.exitCode) = some 3 := by
  have hb : toUpper (argv.getD 2 []) ∉ (loadDictionary [] (some lines)).2.1 := by
    intro h
    exact toUpper_not_hasLower _ (hlow _ ((mem_loadDictionary lines _).mp h))
  simp only [loadDictionary, List.getD_eq_getElem?_getD] at hb hfile
  rcases hargc with rfl | rfl
  · simp [main, ladder, ladderWith, hfile, hb, loadDictionary]
  · simp [main, exploreMain, hfile, hb, loadDictionary]

/-- C17: for a command-line word `s` and a dictionary entry `e` that holds a
lower-case ASCII letter, `toUpper(s)` is not `e`, and in a traversal started
from `toUpper(s)` no word reached and no candidate tested by
`getAdjacentWords` is `e`, so `e` is never visited; a dictionary made only of
such entries gives exit code 3 in ladder mode and in explore mode. -/
theorem lowercase_entry_never_matches (s e : Word) (he : hasLower e) :
    toUpper s ≠ e ∧
    (∀ dict w, Reachable dict (toUpper s) w → w ≠ e ∧ e ∉ testedCandidates w) ∧
    (∀ dict n st, exploreAfter dict (toUpper s) n = some st →
      e ∉ st.visited ∧ ∀ p ∈ st.toVisit, ∀ w, p.last = some w → e ∉ testedCandidates w) ∧
    (∀ dict e' n st, ladderAfter dict (toUpper s) e' n = some st →
      e ∉ st.visited ∧ ∀ p ∈ st.toVisit, ∀ w, p.last = some w → e ∉ testedCandidates w) ∧
    (∀ files argc argv lines, (argc = 4 ∨ argc = 3) → files (List.getD argv 1 []) = some lines →
      (∀ l ∈ lines, hasLower l) →
      (main files argc argv).map (fun r => r.exitCode) = some 3) := by
  have hs := toUpper_not_hasLower s
  have key : ∀ dict w, Reachable dict (toUpper s) w → w ≠ e ∧ e ∉ testedCandidates w :=
    fun dict w hw => not_mem_of_hasLower he (reachable_not_hasLower hs hw)
  refine ⟨fun h => hs (h ▸ he), key, ?_, ?_, ?_⟩
  · intro dict n st hst
    obtain ⟨D, hD⟩ := exploreAfter_inv dict (toUpper s) n st hst
    refine ⟨fun hm => (key dict e (hD.visited_reachable hm)).1 rfl, ?_⟩
    intro p hp w hw
    exact (key dict w (hD.visited_reachable (hD.last_mem (List.mem_append_right _ hp) hw))).2
  · intro dict e' n st hst
    obtain ⟨D, hD⟩ := ladderAfter_inv dict (toUpper s) e' n st hst
    refine ⟨fun hm => (key dict e (hD.visited_reachable hm)).1 rfl, ?_⟩
    intro p hp w hw
    exact (key dict w (hD.visited_reachable (hD.last_mem (List.mem_append_right _ hp) hw))).2
  · intro files argc argv lines hargc hfile hlow
    exact main_exit_3 files argc argv lines hargc hfile hlow

/-- A use of C17: the dictionary {cat, cot} and the words cat and cot. -/
theorem lowercase_entry_never_matches_witness :
    toUpper ['c', 'a', 't'] ≠ ['c', 'a', 't'] ∧
    (main (fun _ => some [['c', 'a', 't'], ['c', 'o', 't']]) 4
      [['w'], ['d'], ['c', 'a', 't'], ['c', 'o', 't']]).map (fun r => r.exitCode) = some 3 := by
  have h := lowercase_entry_never_matches ['c', 'a', 't'] ['c', 'a', 't'] (by decide)
  exact ⟨h.1, h.2.2.2.2 (fun _ => some [['c', 'a', 't'], ['c', 'o', 't']]) 4
    [['w'], ['d'], ['c', 'a', 't'], ['c', 'o', 't']] [['c', 'a', 't'], ['c', 'o', 't']]
    (Or.inl rfl) rfl (by decide)⟩

/-! ## The order of the generator -/

theorem stepKey_set : ∀ (u : Word) (i : Nat) (h : i < u.length) (c : Char), c ≠ u[i] →
    stepKey u (u.set i c) = (i, c)
  | [], i, h, _, _ => by simp at h
  | a :: u, 0, _, c, hc => by
    have : a ≠ c := fun e => hc (by simp [e])
    simp [stepKey, this]
  | a :: u, i + 1, h, c, hc => by
    have h' : i < u.length := by simpa using h
    have hc' : c ≠ u[i] := by simpa using hc
    simp [stepKey, stepKey_set u i h' c hc']

theorem letters_sorted : letters.Pairwise (· < ·) := by decide

theorem keyLt_trans {a b c : Nat × Char} (h1 : keyLt a b) (h2 : keyLt b c) : keyLt a c := by
  unfold keyLt at *
  rcases h1 with h1 | ⟨h1, h1'⟩ <;> rcases h2 with h2 | ⟨h2, h2'⟩
  · exact Or.inl (Nat.lt_trans h1 h2)
  · exact Or.inl (h2 ▸ h1)
  · exact Or.inl (h1 ▸ h2)
  · exact Or.inr ⟨h1.trans h2, Char.lt_trans h1' h2'⟩

theorem getAdjacentWords_sorted (w : Word) (dict : Dictionary) :
    (getAdjacentWords [] w dict).Pairwise fun x y => keyLt (stepKey w x) (stepKey w y) := by
  rw [getAdjacentWords_eq, List.nil_append]
  unfold neighborsSpec
  rw [List.pairwise_flatMap]
  refine ⟨?_, ?_⟩
  · intro i hi
    have hi : i < w.length := List.mem_range.mp hi
    rw [List.pairwise_map]
    refine List.Pairwise.imp_of_mem ?_ (letters_sorted.filter _)
    intro c d hc hd hcd
    simp only [List.mem_filter, decide_eq_true_eq] at hc hd
    have hc' : c ≠ w[i] := fun e => hc.2.1 (by rw [List.getElem?_eq_getElem hi, e])
    have hd' : d ≠ w[i] := fun e => hd.2.1 (by rw [List.getElem?_eq_getElem hi, e])
    rw [stepKey_set w i hi c hc', stepKey_set w i hi d hd']
    exact Or.inr ⟨rfl, hcd⟩
  · refine List.Pairwise.imp_of_mem ?_ (List.pairwise_lt_range w.length)
    intro i j hi hj hij x hx y hy
    have hi : i < w.length := List.mem_range.mp hi
    have hj : j < w.length := List.mem_range.mp hj
    simp only [List.mem_map, List.mem_filter, decide_eq_true_eq] at hx hy
    obtain ⟨c, ⟨_, hc, _⟩, rfl⟩ := hx
    obtain ⟨d, ⟨_, hd, _⟩, rfl⟩ := hy
    have hc' : c ≠ w[i] := fun e => hc (by rw [List.getElem?_eq_getElem hi, e])
    have hd' : d ≠ w[j] := fun e => hd (by rw [List.getElem?_eq_getElem hj, e])
    rw [stepKey_set w i hi c hc', stepKey_set w j hj d hd']
    exact Or.inl hij

theorem newWords_sorted (dict : Dictionary) (w : Word) (V : List Word) :
    (newWords dict w V).Pairwise fun x y => keyLt (stepKey w x) (stepKey w y) :=
  (getAdjacentWords_sorted w dict).filter _

/-! ## The steps of a path -/

theorem pathKeys_length : ∀ l : List Word, (pathKeys l).length = l.length - 1
  | [] => rfl
  | [_] => rfl
  | u :: v :: l => by
    simp only [pathKeys, List.length_cons, pathKeys_length (v :: l)]
    omega

theorem pathKeys_append_singleton :
    ∀ (l : List Word) (u x : Word), l.getLast? = some u →
      pathKeys (l ++ [x]) = pathKeys l ++ [stepKey u x]
  | [], _, _, h => by simp at h
  | [a], u, x, h => by
    simp at h
    subst h
    simp [pathKeys]
  | a :: c :: l, u, x, h => by
    have h' : (c :: l).getLast? = some u := by
      rw [List.getLast?_cons_cons] at h
      exact h
    have ih := pathKeys_append_singleton (c :: l) u x h'
    simp only [List.cons_append, pathKeys, List.append_eq] at ih ⊢
    rw [ih]

theorem lex_append_of_lex {α : Type} {r : α → α → Prop} :
    ∀ {k1 k2 : List α} (s t : List α), List.Lex r k1 k2 → k1.length = k2.length →
      List.Lex r (k1 ++ s) (k2 ++ t)
  | _, _, _, _, List.Lex.nil, hl => by simp at hl
  | _, _, s, t, List.Lex.cons h, hl =>
    List.Lex.cons (lex_append_of_lex s t h (by simpa using hl))
  | _, _, _, _, List.Lex.rel h, _ => List.Lex.rel h

theorem lex_append_same {α : Type} {r : α → α → Prop} {a b : α} (h : r a b) :
    ∀ k : List α, List.Lex r (k ++ [a]) (k ++ [b])
  | [] => List.Lex.rel h
  | _ :: k => List.Lex.cons (lex_append_same h k)

theorem lex_trans {α : Type} {r : α → α → Prop} (hr : ∀ a b c, r a b → r b c → r a c) :
    ∀ {k1 k2 k3 : List α}, List.Lex r k1 k2 → List.Lex r k2 k3 → List.Lex r k1 k3
  | _, _, _, List.Lex.nil, List.Lex.cons _ => List.Lex.nil
  | _, _, _, List.Lex.nil, List.Lex.rel _ => List.Lex.nil
  | _, _, _, List.Lex.cons h1, List.Lex.cons h2 => List.Lex.cons (lex_trans hr h1 h2)
  | _, _, _, List.Lex.cons _, List.Lex.rel h2 => List.Lex.rel h2
  | _, _, _, List.Lex.rel h1, List.Lex.cons _ => List.Lex.rel h1
  | _, _, _, List.Lex.rel h1, List.Lex.rel h2 => List.Lex.rel (hr _ _ _ h1 h2)

theorem pathLt_trans_keys {k1 k2 k3 : List (Nat × Char)} (h1 : List.Lex keyLt k1 k2)
    (h2 : List.Lex keyLt k2 k3) : List.Lex keyLt k1 k3 :=
  @lex_trans _ keyLt (fun _ _ _ hab hbc => keyLt_trans hab hbc) _ _ _ h1 h2

/-! ## The order of discovery -/

theorem list_split_last {α : Type} (l : List α) (x : α) (hl : l.getLast? = some x)
    (h2 : 2 ≤ l.length) :
    ∃ l' u, l = l' ++ [x] ∧ l'.getLast? = some u ∧ l'.length + 1 = l.length := by
  have e : l.dropLast ++ [x] = l := List.dropLast_append_getLast? x hl
  have hlen : l.dropLast.length = l.length - 1 := List.length_dropLast l
  have hne : l.dropLast ≠ [] := by
    intro h
    rw [h] at hlen
    simp at hlen
    omega
  exact ⟨l.dropLast, l.dropLast.getLast hne, e.symm, List.getLast?_eq_getLast _ _, by omega⟩

theorem walk_split {dict : Dictionary} {b : Word} (l : List Word) (x : Word)
    (hh : l.head? = some b) (hc : l.Chain' (adjStep dict)) (hl : l.getLast? = some x)
    (h2 : 2 ≤ l.length) :
    ∃ l' u, l = l' ++ [x] ∧ l'.head? = some b ∧ l'.Chain' (adjStep dict) ∧
      l'.getLast? = some u ∧ adjStep dict u x ∧ l'.length + 1 = l.length := by
  obtain ⟨l', u, e, hu, hlen⟩ := list_split_last l x hl h2
  subst e
  have hne : l' ≠ [] := by
    intro h
    rw [h] at hu
    simp at hu
  rw [List.head?_append_of_ne_nil _ hne] at hh
  have hc' := List.chain'_append.mp hc
  exact ⟨l', u, rfl, hh, hc'.1, hu, hc'.2.2 u hu x (by simp), hlen⟩

theorem pathKeys_add (p : WordPath) (w x : Word) (hw : p.last = some w) :
    pathKeys (p.add x).d_words = pathKeys p.d_words ++ [stepKey w x] :=
  pathKeys_append_singleton p.d_words w x hw

theorem LexInv.at_start (dict : Dictionary) (b : Word) : LexInv dict b [] [WordPath.single b] where
  ordered := by simp
  first := by
    intro p hp l hh _ _ hlen
    simp at hp
    subst hp
    left
    simp only [WordPath.single, WordPath.length, List.nil_append, List.length_singleton] at hlen ⊢
    cases l with
    | nil => simp at hlen
    | cons a t =>
      simp at hh hlen
      subst hh hlen
      rfl
  parent := by
    intro p hp h2
    simp at hp
    subst hp
    simp [WordPath.single, WordPath.length] at h2

theorem LexInv.after_step {dict : Dictionary} {b : Word} {D rest : List WordPath}
    {p : WordPath} {V : List Word} (hI : Inv dict b D (p :: rest) V)
    (hL : LexInv dict b D (p :: rest)) {w : Word} (hw : p.last = some w) :
    LexInv dict b (D ++ [p]) (rest ++ (newWords dict w V).map p.add) := by
  have hassoc : (D ++ [p]) ++ (rest ++ (newWords dict w V).map p.add) =
      (D ++ p :: rest) ++ (newWords dict w V).map p.add := by simp
  have hsorted := hI.sorted
  rw [List.pairwise_append] at hsorted
  have hDle : ∀ a ∈ D, a.length ≤ p.length := fun a ha =>
    hsorted.2.2 a ha p (List.mem_cons_self _ _)
  have hrest_ge : ∀ a ∈ rest, p.length ≤ a.length := fun a ha =>
    (List.pairwise_cons.mp hsorted.2.1).1 a ha
  have hrest_le : ∀ a ∈ rest, a.length ≤ p.length + 1 := fun a ha =>
    hI.window p (List.mem_cons_self _ _) a (List.mem_cons_of_mem _ ha)
  obtain ⟨_, _, hpos⟩ := hI.front_last
  have hord := hL.ordered
  rw [List.pairwise_append] at hord
  have hkp : (pathKeys p.d_words).length = p.length - 1 := pathKeys_length _
  refine ⟨?_, ?_, ?_⟩
  · -- ordered
    rw [hassoc, List.pairwise_append]
    refine ⟨hL.ordered, ?_, ?_⟩
    · rw [List.pairwise_map]
      refine (newWords_sorted dict w V).imp ?_
      intro x y hxy
      right
      refine ⟨by rw [WordPath.length_add, WordPath.length_add], ?_⟩
      rw [pathKeys_add p w x hw, pathKeys_add p w y hw]
      exact lex_append_same hxy _
    · intro a ha q hq
      obtain ⟨x, _, rfl⟩ := List.mem_map.mp hq
      have hlt_of_le : a.length ≤ p.length → pathLt a (p.add x) := by
        intro h
        left
        rw [WordPath.length_add]
        omega
      rcases List.mem_append.mp ha with ha' | ha'
      · exact hlt_of_le (hDle a ha')
      · rcases List.mem_cons.mp ha' with ha' | ha'
        · subst ha'
          exact hlt_of_le (Nat.le_refl _)
        · by_cases hlen : a.length ≤ p.length
          · exact hlt_of_le hlen
          · have hlen' : a.length = p.length + 1 := by
              have := hrest_le a ha'
              omega
            have hpar : a.pop ∈ D := hL.parent a ha (by omega)
            have hpoplen : a.pop.length = p.length := by
              simp only [WordPath.pop, WordPath.length, List.length_dropLast] at hlen' ⊢
              omega
            have hlt : pathLt a.pop p := hord.2.2 a.pop hpar p (List.mem_cons_self _ _)
            have hlex : List.Lex keyLt (pathKeys a.pop.d_words) (pathKeys p.d_words) := by
              rcases hlt with h | h
              · omega
              · exact h.2
            -- `a` is its parent with its last word added
            have hane : a.d_words ≠ [] := by
              intro h
              simp [WordPath.length, h] at hlen'
            obtain ⟨l', u, e, hu, _⟩ := list_split_last a.d_words (a.d_words.getLast hane)
              (List.getLast?_eq_getLast _ _) (by
                have : a.d_words.length = a.length := rfl
                omega)
            have hpop : a.pop.d_words = l' := by
              simp only [WordPath.pop]
              rw [e, List.dropLast_concat]
            have hka : pathKeys a.d_words =
                pathKeys a.pop.d_words ++ [stepKey u (a.d_words.getLast hane)] := by
              rw [hpop]
              conv_lhs => rw [e]
              exact pathKeys_append_singleton l' u _ hu
            right
            refine ⟨by rw [WordPath.length_add]; exact hlen', ?_⟩
            rw [hka, pathKeys_add p w x hw]
            refine lex_append_of_lex _ _ hlex ?_
            rw [pathKeys_length, pathKeys_length]
            have : a.pop.d_words.length = a.pop.length := rfl
            have : p.d_words.length = p.length := rfl
            omega
  · -- first
    rw [hassoc]
    intro q hq l hh hc hl hlen
    rcases List.mem_append.mp hq with hq | hq
    · exact hL.first q hq l hh hc hl hlen
    · obtain ⟨x, hx, rfl⟩ := List.mem_map.mp hq
      rw [WordPath.last_add] at hl
      rw [WordPath.length_add] at hlen
      obtain ⟨l', u, e, hh', hc', hu, hadj, hlen'⟩ := walk_split l x hh hc hl (by omega)
      have hwalk : WalkN dict b (l'.length - 1) u :=
        walkN_of_valid (p := ⟨l'⟩) hh' hc' hu
      have huV : u ∈ V := hI.mem_of_walk hwalk (by
        intro r hr
        rcases List.mem_cons.mp hr with hr | hr
        · subst hr; omega
        · have := hrest_ge r hr; omega)
      obtain ⟨r, hr, hrl⟩ := hI.exists_path huV
      have hrshort := hI.shortest r hr u hrl _ hwalk
      have hxV : x ∉ V := (mem_newWords.mp hx).2
      rcases List.mem_append.mp hr with hrD | hrQ
      · exact absurd (hI.closed r hrD u hrl x hadj) hxV
      · have hrlen : r.length = l'.length := by
          have : p.length ≤ r.length := by
            rcases List.mem_cons.mp hrQ with h | h
            · subst h; exact Nat.le_refl _
            · exact hrest_ge r h
          omega
        have hfirst := hL.first r hr l' hh' hc' (hu.trans hrl.symm) hrlen.symm
        -- compare `l'` with `p`
        have hcmp : l' = p.d_words ∨ List.Lex keyLt (pathKeys p.d_words) (pathKeys l') := by
          rcases List.mem_cons.mp hrQ with h | h
          · subst h
            exact hfirst
          · have hlt : pathLt p r := (List.pairwise_cons.mp hord.2.1).1 r h
            have hlex : List.Lex keyLt (pathKeys p.d_words) (pathKeys r.d_words) := by
              rcases hlt with h' | h'
              · omega
              · exact h'.2
            rcases hfirst with h' | h'
            · right; rw [h']; exact hlex
            · right; exact pathLt_trans_keys hlex h'
        rcases hcmp with h | h
        · left
          rw [e, h]
          rfl
        · right
          rw [pathKeys_add p w x hw, e, pathKeys_append_singleton l' u x hu]
          refine lex_append_of_lex _ _ h ?_
          rw [pathKeys_length, pathKeys_length]
          have : p.d_words.length = p.length := rfl
          omega
  · -- parent
    rw [hassoc]
    intro q hq h2
    rcases List.mem_append.mp hq with hq | hq
    · exact List.mem_append_left _ (hL.parent q hq h2)
    · obtain ⟨x, _, rfl⟩ := List.mem_map.mp hq
      rw [WordPath.pop_add]
      simp

theorem exploreRun_lexInv (dict : Dictionary) (b : Word) :
    ∃ s, exploreRun dict b = some s ∧
      Inv dict b (exploreDequeued dict (dict.length + 2) (exploreInit b)) s.toVisit s.visited ∧
      LexInv dict b (exploreDequeued dict (dict.length + 2) (exploreInit b)) s.toVisit := by
  obtain ⟨s, h1, _⟩ := exploreRun_spec dict b
  have := exploreLoop_history dict
    (fun D s => Inv dict b D s.toVisit s.visited ∧ LexInv dict b D s.toVisit)
    (by
      intro D s p rest s' hq hi hP
      obtain ⟨p', rest', w, hq', hw, rfl⟩ := exploreIter_some hi
      rw [hq] at hq'
      cases hq'
      rw [hq] at hP
      exact ⟨hP.1.preserved hw, LexInv.after_step hP.1 hP.2 hw⟩)
    (dict.length + 2) (exploreInit b) [] s h1
    (by rw [exploreInit_eq]; exact ⟨Inv.init dict b, LexInv.at_start dict b⟩)
  simp only [List.nil_append] at this
  exact ⟨s, h1, this⟩

theorem stepKey_of_adjStep {dict : Dictionary} {u v : Word} (h : adjStep dict u v) :
    ∃ (i : Nat) (c : Char), i < u.length ∧ c ∈ letters ∧ v = u.set i c ∧
      stepKey u v = (i, c) := by
  obtain ⟨i, hi, c, hc, hne, rfl, _⟩ := (mem_getAdjacentWords u v dict).mp h
  exact ⟨i, c, hi, hc, rfl, stepKey_set u i hi c hne⟩

theorem found_is_first (dict : Dictionary) (b e : Word) (p : WordPath)
    (hf : findWordLadderOutcome dict b e = some (LadderOutcome.found p)) :
    (p.d_words.head? = some b ∧ p.d_words.Chain' (adjStep dict) ∧
      p.d_words.getLast? = some e) ∧
    ∀ l : List Word, l.head? = some b → l.Chain' (adjStep dict) → l.getLast? = some e →
      p.length ≤ l.length ∧
      (l.length = p.length →
        l = p.d_words ∨ List.Lex keyLt (pathKeys p.d_words) (pathKeys l)) := by
  obtain ⟨hm, hl⟩ := (found_iff_dequeued dict b e p).mp hf
  obtain ⟨s, _, hI, hL⟩ := exploreRun_lexInv dict b
  have hm' : p ∈ exploreDequeued dict (dict.length + 2) (exploreInit b) ++ s.toVisit :=
    List.mem_append_left _ hm
  have hv := hI.valid p hm'
  refine ⟨⟨hv.1, hv.2, hl⟩, ?_⟩
  intro l hh hc hle
  refine ⟨?_, fun hlen => hL.first p hm' l hh hc (hle.trans hl.symm) hlen⟩
  have hw : WalkN dict b (l.length - 1) e := walkN_of_valid (p := ⟨l⟩) hh hc hle
  have := hI.shortest p hm' e hl _ hw
  have hne : l ≠ [] := by
    intro h
    rw [h] at hh
    simp at hh
  have : 0 < l.length := List.length_pos.mpr hne
  omega

/-! ## Distances in the word-ladder graph -/

theorem walkN_list {dict : Dictionary} {b w : Word} {n : Nat} (h : WalkN dict b n w) :
    ∃ l : List Word, l.head? = some b ∧ l.Chain' (adjStep dict) ∧ l.getLast? = some w ∧
      l.length = n + 1 := by
  induction h with
  | start => exact ⟨[b], rfl, List.chain'_singleton b, rfl, rfl⟩
  | @step n u v _ hs ih =>
    obtain ⟨l, hh, hc, hl, hlen⟩ := ih
    have hne : l ≠ [] := by
      intro e
      rw [e] at hh
      simp at hh
    refine ⟨l ++ [v], ?_, ?_, by simp, by simp [hlen]⟩
    · rw [List.head?_append_of_ne_nil _ hne]
      exact hh
    · apply List.Chain'.append hc (List.chain'_singleton v)
      intro x hx y hy
      rw [hl] at hx
      simp at hx hy
      subst hx hy
      exact hs

theorem ladder_of_walkN {dict : Dictionary} {b w : Word} (hb : b ∈ dict) {n : Nat}
    (h : WalkN dict b n w) : ∃ l, IsLadder dict b w l ∧ l.length = n + 1 := by
  obtain ⟨l, hh, hc, hl, hlen⟩ := walkN_list h
  have hl' : (WordPath.mk l).last = some w := hl
  exact ⟨l, isLadder_of_valid (p := ⟨l⟩) hb hh hc hl', hlen⟩

theorem ladder_length_pos {dict : Dictionary} {b w : Word} {l : List Word}
    (h : IsLadder dict b w l) : 0 < l.length := by
  cases l with
  | nil =>
    have := h.2.2.1
    simp at this
  | cons a t => simp

theorem isDist_iff_isLadderDist {dict : Dictionary} (hU : upperDict dict) {b : Word}
    (hb : b ∈ dict) (w : Word) (n : Nat) : IsDist dict b w n ↔ IsLadderDist dict b w n := by
  constructor
  · rintro ⟨hw, hmin⟩
    refine ⟨ladder_of_walkN hb hw, ?_⟩
    intro l hl
    have := hmin _ (walkN_of_ladder hU hl)
    have := ladder_length_pos hl
    omega
  · rintro ⟨⟨l, hl, hlen⟩, hmin⟩
    refine ⟨?_, ?_⟩
    · have := walkN_of_ladder hU hl
      rw [hlen] at this
      simpa using this
    · intro m hm
      obtain ⟨l', hl', hlen'⟩ := ladder_of_walkN hb hm
      have := hmin l' hl'
      omega

/-- C5, against the claim as stated: on the dictionary
{AA, CA, CC, BC, BB, aA, aB} `explore` from AA reports the path
AA, CA, CC, BC, BB of five words, and AA, aA, aB, BB is a sequence of four
dictionary words from AA to BB in which consecutive words differ in exactly
one position: the reported path is not a shortest path to its last word. -/
theorem explore_longest_not_shortest_ladder :
    explore [['A', 'A'], ['C', 'A'], ['C', 'C'], ['B', 'C'], ['B', 'B'], ['a', 'A'], ['a', 'B']]
        ['A', 'A'] =
      some ("Connected component of AA has 5 elements.\n"
        ++ "A longest path starting from AA: [ AA -> CA -> CC -> BC -> BB ] is of length 5\n") ∧
    IsLadder [['A', 'A'], ['C', 'A'], ['C', 'C'], ['B', 'C'], ['B', 'B'], ['a', 'A'], ['a', 'B']]
      ['A', 'A'] ['B', 'B'] [['A', 'A'], ['a', 'A'], ['a', 'B'], ['B', 'B']] ∧
    [['A', 'A'], ['a', 'A'], ['a', 'B'], ['B', 'B']].length <
      [['A', 'A'], ['C', 'A'], ['C', 'C'], ['B', 'C'], ['B', 'B']].length := by
  refine ⟨by decide, ⟨by decide, ?_, rfl, rfl⟩, by decide⟩
  exact List.Chain'.cons (by decide)
    (List.Chain'.cons (by decide) (List.Chain'.cons (by decide) (List.chain'_singleton _)))

/-- C5, amended: on a dictionary of upper-case words with the start word in
it, the longest path that `explore` reports (the path in the text that it
writes) is a ladder of dictionary words from the start word to its own last
word that no ladder to that word undercuts, and no word has a greater
shortest-path distance from the start word: the reported length is 1 plus the
eccentricity of the start word in the word-ladder graph on the dictionary. -/
theorem explore_longest_shortest_ladder (dict : Dictionary) (b : Word) (hU : upperDict dict)
    (hb : b ∈ dict) :
    ∃ s, exploreRun dict b = some s ∧
      explore dict b =
        some ("Connected component of " ++ String.mk b
          ++ " has " ++ toString s.visited.length ++ " elements.\n"
          ++ "A longest path starting from "
          ++ String.mk b ++ ": " ++ s.longestWordPath.print "" ++ " is of length "
          ++ toString s.longestWordPath.length ++ "\n") ∧
      ∃ w n, IsLadder dict b w s.longestWordPath.d_words ∧
        s.longestWordPath.length = n + 1 ∧
        IsLadderDist dict b w n ∧
        ∀ v m, IsLadderDist dict b v m → m ≤ n := by
  obtain ⟨s, h1, w, n, hl, hh, hc, hlen, hd, _, hecc⟩ := explore_longest_is_eccentricity dict b
  refine ⟨s, h1, explore_text h1, w, n, isLadder_of_valid hb hh hc hl, hlen,
    (isDist_iff_isLadderDist hU hb w n).mp hd, ?_⟩
  intro v m hvm
  exact hecc.2 v m ((isDist_iff_isLadderDist hU hb v m).mpr hvm)

/-- A use of the amended C5 on scenario D of the specification: the reported
path has three words and no word is more than two steps from CAT. -/
theorem explore_longest_shortest_ladder_witness :
    explore [['C', 'A', 'T'], ['C', 'O', 'T'], ['C', 'O', 'G'], ['C', 'A', 'G']]
        ['C', 'A', 'T'] =
      some ("Connected component of CAT has 4 elements.\n"
        ++ "A longest path starting from CAT: [ CAT -> COT -> COG ] is of length 3\n") ∧
    ∀ v m, IsLadderDist [['C', 'A', 'T'], ['C', 'O', 'T'], ['C', 'O', 'G'], ['C', 'A', 'G']]
      ['C', 'A', 'T'] v m → m ≤ 2 := by
  obtain ⟨s, h1, _, w, n, _, hlen, _, hfar⟩ := explore_longest_shortest_ladder
    [['C', 'A', 'T'], ['C', 'O', 'T'], ['C', 'O', 'G'], ['C', 'A', 'G']] ['C', 'A', 'T']
    (by decide) (by decide)
  have h0 : (exploreRun [['C', 'A', 'T'], ['C', 'O', 'T'], ['C', 'O', 'G'], ['C', 'A', 'G']]
      ['C', 'A', 'T']).map (fun s => s.longestWordPath.length) = some 3 := by decide
  rw [h1] at h0
  have h3 : s.longestWordPath.length = 3 := Option.some.inj h0
  have hn : n = 2 := by omega
  subst hn
  exact ⟨by decide, hfar⟩

/-! ## The first of the shortest ladders -/

theorem stepKey_of_differInOne {u v : Word} (h : differInOne u v) :
    ∃ (i : Nat) (c : Char), i < u.length ∧ u[i]? ≠ some c ∧ v = u.set i c ∧
      stepKey u v = (i, c) := by
  obtain ⟨i, hi, c, hc, rfl⟩ := (differInOne_iff u v).mp h
  refine ⟨i, c, hi, ?_, rfl, stepKey_set u i hi c hc⟩
  rw [List.getElem?_eq_getElem hi]
  intro e
  exact hc (Option.some.inj e).symm

/-- C15, against the claim as stated: on the dictionary
{AA, CA, CC, BC, BB, aA, aB} `findWordLadder` from AA to BB outputs the path
AA, CA, CC, BC, BB of five words, and AA, aA, aB, BB is a ladder of four
dictionary words from AA to BB: the output is not among the minimum-length
ladders. -/
theorem findWordLadder_not_minimal_on_mixed_case :
    findWordLadder
        [['A', 'A'], ['C', 'A'], ['C', 'C'], ['B', 'C'], ['B', 'B'], ['a', 'A'], ['a', 'B']]
        ['A', 'A'] ['B', 'B'] = some "[ AA -> CA -> CC -> BC -> BB ]\n" ∧
    findWordLadderOutcome
        [['A', 'A'], ['C', 'A'], ['C', 'C'], ['B', 'C'], ['B', 'B'], ['a', 'A'], ['a', 'B']]
        ['A', 'A'] ['B', 'B'] =
      some (LadderOutcome.found
        ⟨[['A', 'A'], ['C', 'A'], ['C', 'C'], ['B', 'C'], ['B', 'B']]⟩) ∧
    IsLadder [['A', 'A'], ['C', 'A'], ['C', 'C'], ['B', 'C'], ['B', 'B'], ['a', 'A'], ['a', 'B']]
      ['A', 'A'] ['B', 'B'] [['A', 'A'], ['a', 'A'], ['a', 'B'], ['B', 'B']] ∧
    [['A', 'A'], ['a', 'A'], ['a', 'B'], ['B', 'B']].length <
      [['A', 'A'], ['C', 'A'], ['C', 'C'], ['B', 'C'], ['B', 'B']].length := by
  refine ⟨by decide, by decide, ⟨by decide, ?_, rfl, rfl⟩, by decide⟩
  exact List.Chain'.cons (by decide)
    (List.Chain'.cons (by decide) (List.Chain'.cons (by decide) (List.chain'_singleton _)))

/-- C15, amended: on a dictionary of upper-case words with the begin word in
it, a path that `findWordLadder` outputs is the first of the minimum-length
ladders from the begin word to the end word in the order of the generator: it
is a ladder of dictionary words, no ladder has fewer words, and every other
ladder with as many words is greater when the two are compared step by step
by the pair (position changed, new letter), which is what `stepKey` gives for
two words that differ in exactly one position. -/
theorem findWordLadder_first_among_ladders (dict : Dictionary) (b e : Word)
    (hU : upperDict dict) (hb : b ∈ dict) (p : WordPath)
    (hf : findWordLadderOutcome dict b e = some (LadderOutcome.found p)) :
    findWordLadder dict b e = some (p.print "" ++ "\n") ∧
    IsLadder dict b e p.d_words ∧
    (∀ l, IsLadder dict b e l →
      p.length ≤ l.length ∧
      (l.length = p.length →
        l = p.d_words ∨ List.Lex keyLt (pathKeys p.d_words) (pathKeys l))) ∧
    (∀ u v, differInOne u v →
      ∃ (i : Nat) (c : Char), i < u.length ∧ u[i]? ≠ some c ∧ v = u.set i c ∧
        stepKey u v = (i, c)) := by
  have h := found_is_first dict b e p hf
  refine ⟨findWordLadder_of_found hf, isLadder_of_valid hb h.1.1 h.1.2.1 h.1.2.2, ?_,
    fun u v huv => stepKey_of_differInOne huv⟩
  intro l hl
  obtain ⟨hd, hc, hh, hle⟩ := hl
  have hc' : l.Chain' (adjStep dict) := by
    cases l with
    | nil => simp at hh
    | cons a t =>
      exact chain_adjStep_of_ladder hU t a hc (fun x hx => hd x (List.mem_cons_of_mem _ hx))
  exact h.2 l hh hc' hle

/-- A use of the amended C15: of the two ladders of three words from CAT to
COG, the one through COT is returned, and it is smaller than the one through
CAG. -/
theorem findWordLadder_first_among_ladders_witness :
    findWordLadder [['C', 'A', 'T'], ['C', 'O', 'T'], ['C', 'A', 'G'], ['C', 'O', 'G']]
        ['C', 'A', 'T'] ['C', 'O', 'G'] = some "[ CAT -> COT -> COG ]\n" ∧
    List.Lex keyLt (pathKeys [['C', 'A', 'T'], ['C', 'O', 'T'], ['C', 'O', 'G']])
      (pathKeys [['C', 'A', 'T'], ['C', 'A', 'G'], ['C', 'O', 'G']]) := by
  have h := (findWordLadder_first_among_ladders
    [['C', 'A', 'T'], ['C', 'O', 'T'], ['C', 'A', 'G'], ['C', 'O', 'G']]
    ['C', 'A', 'T'] ['C', 'O', 'G'] (by decide) (by decide)
    ⟨[['C', 'A', 'T'], ['C', 'O', 'T'], ['C', 'O', 'G']]⟩ (by decide)).2.2.1
    [['C', 'A', 'T'], ['C', 'A', 'G'], ['C', 'O', 'G']]
    ⟨by decide,
      List.Chain'.cons (by decide) (List.Chain'.cons (by decide) (List.chain'_singleton _)),
      rfl, rfl⟩
  rcases h.2 rfl with h' | h'
  · exact absurd h' (by decide)
  · exact ⟨by decide, h'⟩

end WordChain
